import Mathlib

/-!
# Verification of the marketplace_scraper search-orchestration core

A shallow embedding, in Lean 4, of the core components of the
`marketplace_scraper` repository:

* `src/filters/query_parser.py` — tokenizer, recursive-descent parser,
  DNF expansion, local AST evaluation, boolean-syntax detection;
* `src/storage/query_cache.py` — TTL-bounded subset-matching cache;
* `src/filters/deduplicator.py`, `product_validator.py`,
  `product_filter.py` — pure product-list transforms;
* `src/scrapers/base_scraper.py` — circuit breaker / retry state machine;
* `src/services/search_orchestrator.py` — orchestration pipeline.

Python text is modelled as Lean `String` (a list of characters); the
character classes of the CPython `re` module (`\w`, `\s`) are modelled at
ASCII scope, which covers every string the theorems below touch.
Python `float` prices are modelled as `ℚ`: the code only ever compares
prices, never does arithmetic on them.  Wall-clock times are modelled as
integers passed in explicitly.
-/

set_option autoImplicit false

namespace MarketplaceScraper

/-! ## Character classes (ASCII scope of CPython `re` `\w` and `\s`) -/

/-- ASCII scope of the regex class `\w`: letters, digits, underscore. -/
def isWordChar (c : Char) : Bool :=
  c.isAlphanum || c = '_'

/-- A character that can be part of a WORD token: the regex class
`[^\s()"]` from `_TOKEN_RE`. -/
def isTokenChar (c : Char) : Bool :=
  !(c.isWhitespace || c = '(' || c = ')' || c = '"')

/-! ## Tokens (`TokenType`, `Token` in `query_parser.py`) -/

/-- Lexical token types for the query language. -/
inductive TokenType where
  | PHRASE
  | WORD
  | AND
  | OR
  | LPAREN
  | RPAREN
  | NEGATION
  deriving DecidableEq, Repr

/-- A single lexical token. -/
structure Token where
  type : TokenType
  value : String
  deriving DecidableEq, Repr

/-- Classification of a completed WORD run: a word whose upper-cased form
is exactly `AND` or `OR` becomes the corresponding keyword token
(`tokenize`, word branch). -/
def classifyWord (w : List Char) : Token :=
  let upper := w.map Char.toUpper
  if upper = "AND".data then ⟨TokenType.AND, "AND"⟩
  else if upper = "OR".data then ⟨TokenType.OR, "OR"⟩
  else ⟨TokenType.WORD, String.mk w⟩

/-- Character-list scanner realising `_TOKEN_RE.finditer` over the raw
query.  Alternatives are tried in the regex's priority order at each
position; positions matching no alternative (whitespace, an unmatched
`"`) are skipped, exactly as `finditer` does. -/
def tokenizeAux : List Char → List Token
  | [] => []
  | c :: cs =>
    if c = '"' then
      -- Alternative 1, `"([^"]*)"`: needs a closing quote.
      if cs.contains '"' then
        let phrase := cs.takeWhile (· ≠ '"')
        let rest := (cs.dropWhile (· ≠ '"')).tail
        ⟨TokenType.PHRASE, String.mk phrase⟩ :: tokenizeAux rest
      else
        -- No closing quote: no alternative matches here; skip the char.
        tokenizeAux cs
    else if c = '(' then
      ⟨TokenType.LPAREN, "("⟩ :: tokenizeAux cs
    else if c = ')' then
      ⟨TokenType.RPAREN, ")"⟩ :: tokenizeAux cs
    else if c = '-' && (cs.headD ' ' |> isWordChar) then
      -- Alternative 4, `-\w[\w]*`: the leading '-' is stripped.
      let w := cs.takeWhile (fun d => isWordChar d)
      ⟨TokenType.NEGATION, String.mk w⟩ ::
        tokenizeAux (cs.dropWhile (fun d => isWordChar d))
    else if isTokenChar c then
      -- Alternative 5, `[^\s()"]+`, greedy.
      let w := c :: cs.takeWhile (fun d => isTokenChar d)
      classifyWord w :: tokenizeAux (cs.dropWhile (fun d => isTokenChar d))
    else
      -- Whitespace (or another unmatchable char): skipped by finditer.
      tokenizeAux cs
  termination_by cs => cs.length
  decreasing_by
  · have h2 := (List.dropWhile_sublist (· ≠ '"') (l := cs)).length_le
    have h := List.length_tail (cs.dropWhile (· ≠ '"'))
    simp only [List.length_cons]
    omega
  · simp [Nat.lt_succ_iff]
  · simp
  · simp
  · have h2 := (List.dropWhile_sublist (fun d => isWordChar d) (l := cs)).length_le
    simp only [List.length_cons]
    omega
  · have h2 := (List.dropWhile_sublist (fun d => isTokenChar d) (l := cs)).length_le
    simp only [List.length_cons]
    omega
  · simp [Nat.lt_succ_iff]

/-- `tokenize` from `query_parser.py`: split a raw query string into a
list of tokens. -/
def tokenize (raw : String) : List Token :=
  tokenizeAux raw.data

/-! ## AST nodes (`TermNode`, `PhraseNode`, `AndNode`, `OrNode`) -/

/-- The AST of a boolean query: `TermNode | PhraseNode | AndNode | OrNode`. -/
inductive ASTNode where
  | term (value : String)
  | phrase (value : String)
  | and (children : List ASTNode)
  | or (children : List ASTNode)
  deriving Repr

/-- Result of parsing a boolean query string (`QueryPlan`). -/
structure QueryPlan where
  ast : ASTNode
  baseQueries : List String
  globalNegatives : Finset String

/-! ## Recursive-descent parser (`_Parser`)

The Python parser consumes a token list left to right and raises
`ValueError` on failure; we model it as mutually recursive functions on
the remaining token list returning `Except String`.  Recursion is made
structural with a fuel argument; `parse` supplies `3 * |tokens| + 3`
fuel, which theorem `parseExprF_complete` proves sufficient, so the fuel
branch is unreachable from `parse` on parseable input. -/

/-- The `found` part of `_Parser._expect`'s error message. -/
def foundValue : List Token → String
  | [] => "end-of-input"
  | t :: _ => t.value

/-- Collapse rule shared by `parse_expr`/`_parse_and_expr`: a binary
operator node with exactly one operand degenerates to that operand. -/
def collapseOr : List ASTNode → ASTNode
  | [n] => n
  | children => ASTNode.or children

/-- Collapse rule of `_parse_and_expr`. -/
def collapseAnd : List ASTNode → ASTNode
  | [n] => n
  | children => ASTNode.and children

/-- `_Parser._peek_is_unary_start`: WORD, PHRASE or LPAREN. -/
def isUnaryStart : TokenType → Bool
  | TokenType.WORD => true
  | TokenType.PHRASE => true
  | TokenType.LPAREN => true
  | _ => false

mutual

/-- `_Parser._parse_unary`: `unary → PHRASE | WORD | LPAREN expr RPAREN`. -/
def parseUnaryF : Nat → List Token → Except String (ASTNode × List Token)
  | 0, _ => Except.error "parser fuel exhausted"
  | _ + 1, [] => Except.error "Unexpected end of query"
  | _ + 1, ⟨TokenType.PHRASE, v⟩ :: ts1 => Except.ok (ASTNode.phrase v, ts1)
  | _ + 1, ⟨TokenType.WORD, v⟩ :: ts1 => Except.ok (ASTNode.term v, ts1)
  | f + 1, ⟨TokenType.LPAREN, _⟩ :: ts1 =>
    (match parseExprF f ts1 with
     | Except.error e => Except.error e
     | Except.ok (n, ⟨TokenType.RPAREN, _⟩ :: ts3) => Except.ok (n, ts3)
     | Except.ok (_, ts2) =>
       Except.error ("Expected RPAREN, found '" ++ foundValue ts2 ++ "'"))
  | _ + 1, t :: _ =>
    Except.error ("Unexpected token: '" ++ t.value ++ "'")

/-- The loop of `_parse_and_expr`: `(AND? unary)*`, accumulating
children, with the final single-child collapse. -/
def parseAndTailF : Nat → List ASTNode → List Token → Except String (ASTNode × List Token)
  | 0, _, _ => Except.error "parser fuel exhausted"
  | _ + 1, acc, [] => Except.ok (collapseAnd acc, [])
  | f + 1, acc, t :: ts1 =>
    if t.type = TokenType.AND then
      match parseUnaryF f ts1 with
      | Except.error e => Except.error e
      | Except.ok (n, ts2) => parseAndTailF f (acc ++ [n]) ts2
    else if isUnaryStart t.type then
      match parseUnaryF f (t :: ts1) with
      | Except.error e => Except.error e
      | Except.ok (n, ts2) => parseAndTailF f (acc ++ [n]) ts2
    else
      Except.ok (collapseAnd acc, t :: ts1)

/-- `_Parser._parse_and_expr`: `and_expr → unary (AND? unary)*`. -/
def parseAndExprF : Nat → List Token → Except String (ASTNode × List Token)
  | 0, _ => Except.error "parser fuel exhausted"
  | f + 1, ts =>
    match parseUnaryF f ts with
    | Except.error e => Except.error e
    | Except.ok (n, ts1) => parseAndTailF f [n] ts1

/-- The loop of `parse_expr`: `(OR and_expr)*`, accumulating children,
with the final single-child collapse. -/
def parseOrTailF : Nat → List ASTNode → List Token → Except String (ASTNode × List Token)
  | 0, _, _ => Except.error "parser fuel exhausted"
  | f + 1, acc, ⟨TokenType.OR, _⟩ :: ts1 =>
    (match parseAndExprF f ts1 with
     | Except.error e => Except.error e
     | Except.ok (n, ts2) => parseOrTailF f (acc ++ [n]) ts2)
  | _ + 1, acc, ts => Except.ok (collapseOr acc, ts)

/-- `_Parser.parse_expr`: `expr → and_expr (OR and_expr)*`. -/
def parseExprF : Nat → List Token → Except String (ASTNode × List Token)
  | 0, _ => Except.error "parser fuel exhausted"
  | f + 1, ts =>
    match parseAndExprF f ts with
    | Except.error e => Except.error e
    | Except.ok (n, ts1) => parseOrTailF f [n] ts1

end

/-! ## DNF conversion (`_to_dnf`, `_conjunction_to_query`) -/

mutual

/-- `_to_dnf`: convert an AST to a list of conjunctions (OR of ANDs),
each conjunction a flat list of leaf nodes. -/
def toDNF : ASTNode → List (List ASTNode)
  | ASTNode.term v => [[ASTNode.term v]]
  | ASTNode.phrase v => [[ASTNode.phrase v]]
  | ASTNode.or children => toDNFConcat children
  | ASTNode.and children => toDNFProduct children [[]]

/-- OR branch: concatenation of the children's conjunction lists. -/
def toDNFConcat : List ASTNode → List (List ASTNode)
  | [] => []
  | c :: cs => toDNF c ++ toDNFConcat cs

/-- AND branch: the `for child_dnf in child_dnfs` product loop, with the
running `product` as accumulator. -/
def toDNFProduct : List ASTNode → List (List ASTNode) → List (List ASTNode)
  | [], product => product
  | c :: cs, product =>
    toDNFProduct cs
      ((product.map (fun existing => (toDNF c).map (fun conj => existing ++ conj))).flatten)

end

/-- The `.value` of a leaf node (`_conjunction_to_query` reads it for
both `PhraseNode` and `TermNode`; operator nodes never occur in a
conjunction). -/
def leafValue : ASTNode → String
  | ASTNode.term v => v
  | ASTNode.phrase v => v
  | _ => ""

/-- `_conjunction_to_query`: join the leaf text values with spaces. -/
def conjunctionToQuery (conjunction : List ASTNode) : String :=
  String.intercalate " " (conjunction.map leafValue)

/-! ## Local evaluator (`local_evaluate`) -/

/-- Case-insensitive substring test, modelling Python's
`needle.lower() in text.lower()`. -/
def containsCI (text needle : String) : Bool :=
  decide ((needle.data.map Char.toLower) <:+: (text.data.map Char.toLower))

mutual

/-- `local_evaluate`: decide whether *text* satisfies the boolean AST. -/
def localEvaluate (text : String) : ASTNode → Bool
  | ASTNode.term v => containsCI text v
  | ASTNode.phrase v => containsCI text v
  | ASTNode.and children => localEvaluateAll text children
  | ASTNode.or children => localEvaluateAny text children

/-- Python's short-circuiting `all(...)` over the children. -/
def localEvaluateAll (text : String) : List ASTNode → Bool
  | [] => true
  | c :: cs => localEvaluate text c && localEvaluateAll text cs

/-- Python's short-circuiting `any(...)` over the children. -/
def localEvaluateAny (text : String) : List ASTNode → Bool
  | [] => false
  | c :: cs => localEvaluate text c || localEvaluateAny text cs

end

/-! ## Boolean-syntax detection (`has_boolean_syntax`)

The regex `\bAND\b | \bOR\b | [(")]` (re.IGNORECASE) searched over the
raw query, realised as a left-to-right scan carrying the previous
character for the left word boundary. -/

/-- Right word boundary `\b` after a word character: true at end of
input or before a non-word character. -/
def boundaryRight : List Char → Bool
  | [] => true
  | c :: _ => !isWordChar c

/-- Left word boundary `\b` before a word character: true at the start
of input or after a non-word character. -/
def boundaryLeft : Option Char → Bool
  | none => true
  | some c => !isWordChar c

/-- `\bAND\b` (case-insensitive) matches at this position. -/
def matchANDHere : List Char → Bool
  | a :: n :: d :: rest =>
    a.toUpper = 'A' && n.toUpper = 'N' && d.toUpper = 'D' && boundaryRight rest
  | _ => false

/-- `\bOR\b` (case-insensitive) matches at this position. -/
def matchORHere : List Char → Bool
  | o :: r :: rest => o.toUpper = 'O' && r.toUpper = 'R' && boundaryRight rest
  | _ => false

/-- Scan every position of the string for a match of the boolean-syntax
pattern, carrying the previous character (for `\b`). -/
def booleanScan (prev : Option Char) : List Char → Bool
  | [] => false
  | c :: rest =>
    if c = '(' || c = ')' || c = '"' then true
    else if boundaryLeft prev && (matchANDHere (c :: rest) || matchORHere (c :: rest)) then
      true
    else booleanScan (some c) rest

/-- `has_boolean_syntax`: detect whether a raw query uses boolean
operators, parentheses or double quotes. -/
def hasBooleanSyntax (rawQuery : String) : Bool :=
  booleanScan none rawQuery.data

/-! ## Public API (`QueryPlanner.parse`) -/

namespace QueryPlanner

/-- The token-level part of `QueryPlanner.parse`: strip negations,
parse, reject leftover tokens, expand to DNF base queries. -/
def parseTokens (tokens : List Token) : Except String QueryPlan :=
  let negatives : Finset String :=
    ((tokens.filter (fun t => t.type = TokenType.NEGATION)).map Token.value).toFinset
  let exprTokens := tokens.filter (fun t => t.type ≠ TokenType.NEGATION)
  if exprTokens.isEmpty then
    Except.error "Query contains no search terms"
  else
    match parseExprF (3 * exprTokens.length + 3) exprTokens with
    | Except.error e => Except.error e
    | Except.ok (ast, rest) =>
      if !rest.isEmpty then
        Except.error "Unexpected token after expression"
      else
        let dnf := toDNF ast
        Except.ok ⟨ast, dnf.map conjunctionToQuery, negatives⟩

/-- `QueryPlanner.parse`: parse a raw query into an AST, base queries,
and negatives. -/
def parse (rawQuery : String) : Except String QueryPlan :=
  parseTokens (tokenize rawQuery)

end QueryPlanner

/-! ## Product model (`src/models/product.py`)

`price` is a Python `float`; the core only ever compares prices (no
arithmetic), so it is modelled as `ℚ`. -/

/-- A single product listing from any marketplace. -/
structure Product where
  title : String
  price : ℚ
  currency : String := "AED"
  rating : String := ""
  url : String := ""
  source : String := ""
  imageUrl : String := ""
  deriving DecidableEq, Repr, Inhabited

/-! ## Deduplicator (`src/filters/deduplicator.py`)

URL normalisation note: the regex `[?#].*$` is modelled as "drop
everything from the first `?` or `#`", which coincides with `re.sub` on
URLs without newline characters. -/

namespace ProductDeduplicator

/-- `_normalise_url`: strip query parameters and fragments, strip
trailing slashes, lowercase. -/
def normaliseUrl (url : String) : String :=
  if url = "" then ""
  else
    let cleaned := url.data.takeWhile (fun c => !(c = '?' || c = '#'))
    let stripped := (cleaned.reverse.dropWhile (fun c => c = '/')).reverse
    String.mk (stripped.map Char.toLower)

/-- Python `str.split()` with no separator: split on whitespace runs,
dropping empty pieces; `acc` is the current word, reversed. -/
def splitWsAux : List Char → List Char → List (List Char)
  | [], acc => if acc.isEmpty then [] else [acc.reverse]
  | c :: rest, acc =>
    if c.isWhitespace then
      if acc.isEmpty then splitWsAux rest [] else acc.reverse :: splitWsAux rest []
    else splitWsAux rest (c :: acc)

/-- Python `" ".join(words)` at character level. -/
def joinWords : List (List Char) → List Char
  | [] => []
  | [w] => w
  | w :: ws => w ++ ' ' :: joinWords ws

/-- `_normalise_title`: lowercase, strip characters outside
`[a-z0-9\s]`, collapse whitespace runs to single spaces. -/
def normaliseTitle (title : String) : String :=
  let lowered := title.data.map Char.toLower
  let alphaOnly :=
    lowered.filter (fun c => ('a' ≤ c && c ≤ 'z') || c.isDigit || c.isWhitespace)
  String.mk (joinWords (splitWsAux alphaOnly []))

/-- The `source:normalised-title` dictionary key used by `deduplicate`. -/
def titleKeyOf (product : Product) : String :=
  product.source ++ ":" ++ normaliseTitle product.title

/-- The loop state of `deduplicate`: the `seen_urls` / `seen_titles`
dictionaries (insertion-ordered association lists; every inserted key is
fresh, so lookup agrees with the Python dict), the kept list and the
removed counter. -/
structure DedupState where
  seenUrls : List (String × Nat)
  seenTitles : List (String × Nat)
  kept : List Product
  removed : Nat
  deriving Repr

/-- One iteration of the `for product in products` loop of
`deduplicate`. -/
def dedupStep (st : DedupState) (product : Product) : DedupState :=
  let normUrl := normaliseUrl product.url
  let titleKey := titleKeyOf product
  match (if normUrl ≠ "" then st.seenUrls.lookup normUrl else none) with
  | some existingIdx =>
    -- URL-based duplicate
    { st with
      kept :=
        if 0 < product.price ∧ product.price < (st.kept.getD existingIdx default).price
        then st.kept.set existingIdx product
        else st.kept,
      removed := st.removed + 1 }
  | none =>
    match st.seenTitles.lookup titleKey with
    | some existingIdx =>
      -- Title-based duplicate (same source only, via the key prefix)
      { st with
        kept :=
          if 0 < product.price ∧ product.price < (st.kept.getD existingIdx default).price
          then st.kept.set existingIdx product
          else st.kept,
        removed := st.removed + 1 }
    | none =>
      -- New unique product
      let idx := st.kept.length
      { seenUrls := if normUrl ≠ "" then (normUrl, idx) :: st.seenUrls else st.seenUrls,
        seenTitles := (titleKey, idx) :: st.seenTitles,
        kept := st.kept ++ [product],
        removed := st.removed }

/-- `ProductDeduplicator.deduplicate`: remove duplicate products,
keeping the cheapest per group; returns the deduplicated list and the
count of removed duplicates. -/
def deduplicate (products : List Product) : List Product × Nat :=
  if products.isEmpty then ([], 0)
  else
    let st := products.foldl dedupStep ⟨[], [], [], 0⟩
    (st.kept, st.removed)

end ProductDeduplicator

/-! ## Validator (`src/filters/product_validator.py`) -/

namespace ProductValidator

/-- `ProductValidator.validate`: drop products with empty/whitespace
titles or non-positive prices; return the valid products and the count
of dropped items. -/
def validate (products : List Product) : List Product × Nat :=
  products.foldl
    (fun acc product =>
      if product.title.data.all (fun c => c.isWhitespace) then (acc.1, acc.2 + 1)
      else if product.price ≤ 0 then (acc.1, acc.2 + 1)
      else (acc.1 ++ [product], acc.2))
    ([], 0)

end ProductValidator

/-! ## Keyword filter (`src/filters/product_filter.py`) -/

namespace ProductFilter

/-- `ProductFilter.filter_by_keywords`: remove products whose title
contains any negative keyword (case-insensitive substring); return the
filtered list and the excluded count. -/
def filterByKeywords (products : List Product) (negativeKeywords : List String) :
    List Product × Nat :=
  if negativeKeywords.isEmpty then (products, 0)
  else
    let loweredKeywords := negativeKeywords.map (fun kw => kw.data.map Char.toLower)
    products.foldl
      (fun acc product =>
        let titleLower := product.title.data.map Char.toLower
        if loweredKeywords.any (fun kw => decide (kw <:+: titleLower)) then
          (acc.1, acc.2 + 1)
        else (acc.1 ++ [product], acc.2))
      ([], 0)

end ProductFilter

/-! ## Result cache (`src/storage/query_cache.py`)

The cache is the entry list of a `QueryCache` instance; the TTL
(`Settings.QUERY_CACHE_TTL`, a positive constant not present under
`src/`) and the current wall-clock time are explicit parameters. -/

/-- A cached set of results for a specific base query and filter
state. -/
structure CacheEntry where
  baseQuery : String
  negativeTerms : Finset String
  sourceIds : Finset String
  results : List Product
  timestamp : ℤ

namespace QueryCache

/-- `_evict_expired`: keep entries with `now - timestamp < ttl`. -/
def evictExpired (ttl now : ℤ) (entries : List CacheEntry) : List CacheEntry :=
  entries.filter (fun e => now - e.timestamp < ttl)

/-- The hit condition of `find_subset_match`: exactly equal base query,
exactly equal source-id set, and cached negatives a subset of (or equal
to) the requested negatives. -/
def entryMatches (baseQuery : String) (requestedNegatives sourceIds : Finset String)
    (e : CacheEntry) : Bool :=
  decide (e.baseQuery = baseQuery) && decide (e.sourceIds = sourceIds) &&
    decide (e.negativeTerms ⊆ requestedNegatives)

/-- `QueryCache.find_subset_match`: evict expired entries, then return
the first covering entry's product list (`None` on miss), together with
the post-eviction entry list (the mutated `self._entries`). -/
def findSubsetMatch (ttl : ℤ) (entries : List CacheEntry) (baseQuery : String)
    (requestedNegatives sourceIds : Finset String) (now : ℤ) :
    Option (List Product) × List CacheEntry :=
  let entries' := evictExpired ttl now entries
  ((entries'.find? (entryMatches baseQuery requestedNegatives sourceIds)).map
      CacheEntry.results,
    entries')

/-- `QueryCache.store`: append a new entry stamped with the current
time; existing entries are never replaced or merged. -/
def store (entries : List CacheEntry) (baseQuery : String)
    (negativeTerms sourceIds : Finset String) (results : List Product) (now : ℤ) :
    List CacheEntry :=
  entries ++ [⟨baseQuery, negativeTerms, sourceIds, results, now⟩]

end QueryCache

/-! ## Aliasing view of the cache (for the copy-on-return guarantee)

Python lists are heap references; `find_subset_match` returns
`list(entry.results)` and `store` saves `list(results)` — fresh copies.
To state what a caller's in-place mutation can and cannot affect, this
second view models the Python object store explicitly: a `Heap` maps
list references to contents, entries hold references, and `list(...)`
is an allocation of a copy. -/

/-- The Python object store, restricted to product lists: reference
cells `0, …, next - 1` are live. -/
structure Heap where
  lists : Nat → List Product
  next : Nat

/-- Allocation of a fresh list object (Python `list(...)`). -/
def Heap.alloc (h : Heap) (l : List Product) : Nat × Heap :=
  (h.next, ⟨fun i => if i = h.next then l else h.lists i, h.next + 1⟩)

/-- In-place mutation of the list behind a reference (append, remove,
reorder, …): the contents are replaced wholesale. -/
def Heap.write (h : Heap) (r : Nat) (l : List Product) : Heap :=
  ⟨fun i => if i = r then l else h.lists i, h.next⟩

/-- `CacheEntry` with its `results` list held by reference. -/
structure CacheEntryRef where
  baseQuery : String
  negativeTerms : Finset String
  sourceIds : Finset String
  resultsRef : Nat
  timestamp : ℤ

namespace QueryCache

/-- Hit condition of `find_subset_match` on a by-reference entry. -/
def entryMatchesRef (baseQuery : String) (requestedNegatives sourceIds : Finset String)
    (e : CacheEntryRef) : Bool :=
  decide (e.baseQuery = baseQuery) && decide (e.sourceIds = sourceIds) &&
    decide (e.negativeTerms ⊆ requestedNegatives)

/-- `find_subset_match`, aliasing view: on a hit the returned list is a
fresh copy (`list(entry.results)`) allocated on the heap. -/
def findSubsetMatchRef (ttl : ℤ) (entries : List CacheEntryRef) (baseQuery : String)
    (requestedNegatives sourceIds : Finset String) (now : ℤ) (heap : Heap) :
    Option Nat × List CacheEntryRef × Heap :=
  let entries' := entries.filter (fun e => now - e.timestamp < ttl)
  match entries'.find? (entryMatchesRef baseQuery requestedNegatives sourceIds) with
  | some e =>
    let allocated := heap.alloc (heap.lists e.resultsRef)
    (some allocated.1, entries', allocated.2)
  | none => (none, entries', heap)

/-- `store`, aliasing view: the entry holds a fresh copy
(`list(results)`) of the caller's list. -/
def storeRef (entries : List CacheEntryRef) (baseQuery : String)
    (negativeTerms sourceIds : Finset String) (resultsRef : Nat) (now : ℤ)
    (heap : Heap) : List CacheEntryRef × Heap :=
  let allocated := heap.alloc (heap.lists resultsRef)
  (entries ++ [⟨baseQuery, negativeTerms, sourceIds, allocated.1, now⟩], allocated.2)

/-- Well-formedness: every entry's reference is a live heap cell. -/
def RefsLive (entries : List CacheEntryRef) (heap : Heap) : Prop :=
  ∀ e ∈ entries, e.resultsRef < heap.next

/-- Observer: the product list a lookup hands to the caller (the
contents behind the returned reference), `none` on a miss. -/
def lookupContents (ttl : ℤ) (entries : List CacheEntryRef) (baseQuery : String)
    (requestedNegatives sourceIds : Finset String) (now : ℤ) (heap : Heap) :
    Option (List Product) :=
  match findSubsetMatchRef ttl entries baseQuery requestedNegatives sourceIds now heap with
  | (some r, _, heap') => some (heap'.lists r)
  | (none, _, _) => none

end QueryCache

/-! ## Resilient fetch layer (`src/scrapers/base_scraper.py`)

Per-instance mutable state and the `_fetch_get` retry loop.  Network
outcomes are an oracle indexed by attempt number; wall-clock time is a
single explicit `now` per logical call (the code reads `time.time()`
during the call; nothing verified here depends on intra-call drift).
`CIRCUIT_BREAKER_COOLDOWN` is referenced by the code but not defined
under `src/`; it is a parameter here, per the spec a fixed cooldown
duration. -/

namespace BaseScraper

/-- The `Settings` constants consulted by the fetch layer. -/
structure ScraperSettings where
  requestDelay : ℚ
  maxRetries : Nat
  circuitBreakerThreshold : Nat
  circuitBreakerCooldown : ℤ
  maxDelayMultiplier : ℚ

/-- The per-instance mutable attributes set in `BaseScraper.__init__`. -/
structure ScraperState where
  currentDelay : ℚ
  consecutiveFailures : Nat
  circuitOpen : Bool
  circuitOpenedAt : ℤ

/-- The state of a freshly constructed scraper. -/
def initialState (s : ScraperSettings) : ScraperState :=
  ⟨s.requestDelay, 0, false, 0⟩

/-- `_check_circuit`: returns whether the breaker blocks this request,
together with the updated state (half-open transition clears the open
flag once the cooldown has elapsed). -/
def checkCircuit (s : ScraperSettings) (st : ScraperState) (now : ℤ) :
    Bool × ScraperState :=
  if !st.circuitOpen then (false, st)
  else if now - st.circuitOpenedAt ≥ s.circuitBreakerCooldown then
    (false, { st with circuitOpen := false })
  else (true, st)

/-- `_record_success`: reset failure counters and delay. -/
def recordSuccess (s : ScraperSettings) (_st : ScraperState) : ScraperState :=
  ⟨s.requestDelay, 0, false, 0⟩

/-- `_record_failure`: bump the counter; open the breaker at the
threshold. -/
def recordFailure (s : ScraperSettings) (st : ScraperState) (now : ℤ) : ScraperState :=
  let failures := st.consecutiveFailures + 1
  if failures ≥ s.circuitBreakerThreshold then
    { st with consecutiveFailures := failures, circuitOpen := true,
              circuitOpenedAt := now }
  else { st with consecutiveFailures := failures }

/-- `_escalate_delay`: double the delay up to the configured cap. -/
def escalateDelay (s : ScraperSettings) (st : ScraperState) : ScraperState :=
  { st with currentDelay := min (st.currentDelay * 2) (s.requestDelay * s.maxDelayMultiplier) }

/-- Outcome of one network attempt inside the retry loop. -/
inductive AttemptOutcome where
  | success                -- HTTP 200 passing `_validate_response`
  | invalidResponse        -- HTTP 200 failing `_validate_response`
  | httpStatus (code : Nat) -- non-200 status
  | transportError         -- exception raised by the request

/-- The `for attempt in range(MAX_RETRIES)` loop of `_fetch_get`.
Returns (success flag, state, number of network attempts performed). -/
def fetchLoop (s : ScraperSettings) (outcomes : Nat → AttemptOutcome) :
    Nat → Nat → ScraperState → Bool × ScraperState × Nat
  | 0, _, st => (false, st, 0)
  | remaining + 1, attemptIdx, st =>
    match outcomes attemptIdx with
    | AttemptOutcome.success => (true, recordSuccess s st, 1)
    | AttemptOutcome.invalidResponse =>
      let next := fetchLoop s outcomes remaining (attemptIdx + 1) (escalateDelay s st)
      (next.1, next.2.1, next.2.2 + 1)
    | AttemptOutcome.httpStatus code =>
      let next := fetchLoop s outcomes remaining (attemptIdx + 1)
        (if code = 429 ∨ code = 403 then escalateDelay s st else st)
      (next.1, next.2.1, next.2.2 + 1)
    | AttemptOutcome.transportError =>
      let next := fetchLoop s outcomes remaining (attemptIdx + 1) st
      (next.1, next.2.1, next.2.2 + 1)

/-- `_fetch_get`: circuit check, then the retry loop; exhausting all
attempts records a failure (which may trip the breaker) and returns no
result.  The first component is the fetched response (`None` on block or
exhaustion), the last the number of network attempts performed. -/
def fetchGet (s : ScraperSettings) (outcomes : Nat → AttemptOutcome)
    (st : ScraperState) (now : ℤ) : Option Unit × ScraperState × Nat :=
  let chk := checkCircuit s st now
  if chk.1 then (none, chk.2, 0)
  else
    let run := fetchLoop s outcomes s.maxRetries 0 chk.2
    if run.1 then (some (), run.2.1, run.2.2)
    else (none, recordFailure s run.2.1 now, run.2.2)

end BaseScraper

/-! ## Orchestrator (`src/services/search_orchestrator.py`)

Scraper dispatch is an oracle: for each source, either a product batch
or the message of the exception the scraper raised (`asyncio.gather`
with `return_exceptions=True` preserves task order, so the sequential
fold is a faithful model of the concurrent gather's result list). -/

/-- Container for a completed search across multiple sources. -/
structure SearchResult where
  query : String
  products : List Product
  excludedCount : Nat
  deduplicatedCount : Nat
  invalidCount : Nat
  totalBeforeFilter : Nat
  cacheHits : Nat
  errors : List String
  deriving Repr, DecidableEq

namespace SearchOrchestrator

/-- `_run_scrapers`: flatten successful batches in task order and
collect raised exceptions as error strings. -/
def runScrapers (batches : List (Except String (List Product))) :
    List Product × List String :=
  batches.foldl
    (fun acc batch =>
      match batch with
      | Except.ok ps => (acc.1 ++ ps, acc.2)
      | Except.error e => (acc.1, acc.2 ++ [e]))
    ([], [])

/-- `SearchOrchestrator.search`: cache probe, scrape on miss, validate,
store, keyword-filter, deduplicate.  `batches` is the scraper-dispatch
oracle for this query; `ttl`/`now` make the cache's clock explicit. -/
def search (ttl : ℤ) (query : String) (sourceIds : List String)
    (negativeKeywords : List String) (batches : List (Except String (List Product)))
    (cache : List CacheEntry) (now : ℤ) : SearchResult × List CacheEntry :=
  let keywords := negativeKeywords
  let srcIds := sourceIds.toFinset
  let negSet := keywords.toFinset
  let probe := QueryCache.findSubsetMatch ttl cache query negSet srcIds now
  match probe.1 with
  | some cached =>
    -- Cache hit: skip dispatch entirely; re-validate the cached data.
    let validated := ProductValidator.validate cached
    let totalBeforeFilter := validated.1.length
    let filtered := ProductFilter.filterByKeywords validated.1 keywords
    let deduped := ProductDeduplicator.deduplicate filtered.1
    (⟨query, deduped.1, filtered.2, deduped.2, validated.2,
      totalBeforeFilter, 1, []⟩, probe.2)
  | none =>
    let dispatched := runScrapers batches
    let validated := ProductValidator.validate dispatched.1
    let cache2 := QueryCache.store probe.2 query negSet srcIds validated.1 now
    let totalBeforeFilter := validated.1.length
    let filtered := ProductFilter.filterByKeywords validated.1 keywords
    let deduped := ProductDeduplicator.deduplicate filtered.1
    (⟨query, deduped.1, filtered.2, deduped.2, validated.2,
      totalBeforeFilter, 0, dispatched.2⟩, cache2)

/-- Accumulator of the per-base-query loop of
`execute_advanced_search`: merged raw products, errors, invalid count,
cache hits, cache entries. -/
structure AdvLoopState where
  allRaw : List Product
  errors : List String
  invalidCount : Nat
  cacheHits : Nat
  cache : List CacheEntry

/-- One iteration of the `for bq in plan.base_queries` loop. -/
def advStep (ttl : ℤ) (sourceIds : List String) (negSet : Finset String)
    (oracle : String → List (Except String (List Product))) (now : ℤ)
    (acc : AdvLoopState) (bq : String) : AdvLoopState :=
  let probe := QueryCache.findSubsetMatch ttl acc.cache bq negSet sourceIds.toFinset now
  match probe.1 with
  | some cached =>
    { acc with allRaw := acc.allRaw ++ cached, cacheHits := acc.cacheHits + 1,
               cache := probe.2 }
  | none =>
    let dispatched := runScrapers (oracle bq)
    let validated := ProductValidator.validate dispatched.1
    let cache2 := QueryCache.store probe.2 bq negSet sourceIds.toFinset validated.1 now
    { allRaw := acc.allRaw ++ validated.1, errors := acc.errors ++ dispatched.2,
      invalidCount := acc.invalidCount + validated.2, cacheHits := acc.cacheHits,
      cache := cache2 }

/-- `SearchOrchestrator.execute_advanced_search`: parse, per-base-query
cache/scrape loop, merge, validate, AST-filter, keyword-filter,
deduplicate.  A parse failure propagates as the raised `ValueError`. -/
def executeAdvancedSearch (ttl : ℤ) (rawQuery : String) (sourceIds : List String)
    (negativeKeywords : List String)
    (oracle : String → List (Except String (List Product)))
    (cache : List CacheEntry) (now : ℤ) :
    Except String (SearchResult × List CacheEntry) :=
  match QueryPlanner.parse rawQuery with
  | Except.error e => Except.error e
  | Except.ok plan =>
    let allNegatives := plan.globalNegatives ∪ negativeKeywords.toFinset
    let negKwList := allNegatives.sort (· ≤ ·)
    let loopEnd := plan.baseQueries.foldl
      (advStep ttl sourceIds allNegatives oracle now) ⟨[], [], 0, 0, cache⟩
    let validated := ProductValidator.validate loopEnd.allRaw
    let invalidCount := loopEnd.invalidCount + validated.2
    let totalBeforeFilter := validated.1.length
    let astFiltered := validated.1.filter (fun p => localEvaluate p.title plan.ast)
    let astRemoved := validated.1.length - astFiltered.length
    let filtered := ProductFilter.filterByKeywords astFiltered negKwList
    let excludedCount := filtered.2 + astRemoved
    let deduped := ProductDeduplicator.deduplicate filtered.1
    Except.ok
      (⟨rawQuery, deduped.1, excludedCount, deduped.2, invalidCount,
        totalBeforeFilter, loopEnd.cacheHits, loopEnd.errors⟩, loopEnd.cache)

/-- The merged-result loop of `multi_search` for semicolon-separated
queries: accumulate sub-results, then cross-query dedup. -/
def multiStep (ttl : ℤ) (sourceIds : List String) (negativeKeywords : List String)
    (oracle : String → List (Except String (List Product))) (now : ℤ)
    (acc : List Product × SearchResult × List CacheEntry) (q : String) :
    List Product × SearchResult × List CacheEntry :=
  let run := search ttl q sourceIds negativeKeywords (oracle q) acc.2.2 now
  (acc.1 ++ run.1.products,
   { acc.2.1 with
     excludedCount := acc.2.1.excludedCount + run.1.excludedCount,
     totalBeforeFilter := acc.2.1.totalBeforeFilter + run.1.totalBeforeFilter,
     cacheHits := acc.2.1.cacheHits + run.1.cacheHits,
     errors := acc.2.1.errors ++ run.1.errors },
   run.2)

/-- `SearchOrchestrator.multi_search`: route to the advanced boolean
search, a semicolon-separated multi-search, or a plain single search. -/
def multiSearch (ttl : ℤ) (rawQuery : String) (sourceIds : List String)
    (negativeKeywords : List String)
    (oracle : String → List (Except String (List Product)))
    (cache : List CacheEntry) (now : ℤ) :
    Except String (SearchResult × List CacheEntry) :=
  if hasBooleanSyntax rawQuery then
    executeAdvancedSearch ttl rawQuery sourceIds negativeKeywords oracle cache now
  else
    let queries := ((rawQuery.splitOn ";").map String.trim).filter (fun q => q ≠ "")
    match queries with
    | [] => Except.ok (⟨rawQuery, [], 0, 0, 0, 0, 0, []⟩, cache)
    | [q] => Except.ok (search ttl q sourceIds negativeKeywords (oracle q) cache now)
    | _ =>
      let merged := queries.foldl
        (multiStep ttl sourceIds negativeKeywords oracle now)
        ([], ⟨rawQuery, [], 0, 0, 0, 0, 0, []⟩, cache)
      let deduped := ProductDeduplicator.deduplicate merged.1
      Except.ok
        ({ merged.2.1 with products := deduped.1, deduplicatedCount := deduped.2 },
         merged.2.2)

end SearchOrchestrator

/-! ## Supporting lemmas -/

/-- The keyword filter partitions its input: kept plus excluded counts
sum to the input length. -/
theorem filterByKeywords_length (products : List Product) (kws : List String) :
    (ProductFilter.filterByKeywords products kws).1.length +
      (ProductFilter.filterByKeywords products kws).2 = products.length := by
  unfold ProductFilter.filterByKeywords
  split
  · simp
  · suffices h : ∀ (acc : List Product × Nat),
        (products.foldl
          (fun acc product =>
            let titleLower := product.title.data.map Char.toLower
            if (kws.map (fun kw => kw.data.map Char.toLower)).any
                (fun kw => decide (kw <:+: titleLower)) then
              (acc.1, acc.2 + 1)
            else (acc.1 ++ [product], acc.2)) acc).1.length +
        (products.foldl
          (fun acc product =>
            let titleLower := product.title.data.map Char.toLower
            if (kws.map (fun kw => kw.data.map Char.toLower)).any
                (fun kw => decide (kw <:+: titleLower)) then
              (acc.1, acc.2 + 1)
            else (acc.1 ++ [product], acc.2)) acc).2 =
        acc.1.length + acc.2 + products.length by
      simpa using h ([], 0)
    induction products with
    | nil => intro acc; simp
    | cons p ps ih =>
      intro acc
      simp only [List.foldl_cons]
      split
      · rw [ih]; simp; omega
      · rw [ih]; simp; omega

/-- One dedup step either keeps (length + 1) or removes (counter + 1):
the running total `kept.length + removed` always advances by one. -/
theorem dedupStep_length (st : ProductDeduplicator.DedupState) (p : Product) :
    (ProductDeduplicator.dedupStep st p).kept.length +
      (ProductDeduplicator.dedupStep st p).removed =
    st.kept.length + st.removed + 1 := by
  unfold ProductDeduplicator.dedupStep
  cases h : (if ProductDeduplicator.normaliseUrl p.url ≠ "" then
      st.seenUrls.lookup (ProductDeduplicator.normaliseUrl p.url) else none) with
  | some idx =>
    simp only [h]
    split <;> first
      | omega
      | (simp only [List.length_set]; omega)
  | none =>
    simp only [h]
    cases h2 : st.seenTitles.lookup (ProductDeduplicator.titleKeyOf p) with
    | some idx =>
      simp only [h2]
      split <;> first
        | omega
        | (simp only [List.length_set]; omega)
    | none => simp [h2]; omega

/-- The fold underlying `deduplicate` advances `kept.length + removed`
by exactly the number of processed products. -/
theorem dedup_foldl_length (products : List Product) :
    ∀ st : ProductDeduplicator.DedupState,
      (products.foldl ProductDeduplicator.dedupStep st).kept.length +
        (products.foldl ProductDeduplicator.dedupStep st).removed =
      st.kept.length + st.removed + products.length := by
  induction products with
  | nil => intro st; simp
  | cons p ps ih =>
    intro st
    simp only [List.foldl_cons]
    rw [ih, dedupStep_length]
    simp only [List.length_cons]
    omega

/-- The deduplicator partitions its input: kept plus removed counts sum
to the input length. -/
theorem deduplicate_length (products : List Product) :
    (ProductDeduplicator.deduplicate products).1.length +
      (ProductDeduplicator.deduplicate products).2 = products.length := by
  unfold ProductDeduplicator.deduplicate
  split
  · next h => simp_all [List.isEmpty_iff]
  · simpa using dedup_foldl_length products ⟨[], [], [], 0⟩

/-! ## Claim C2 — cache subset-matching law -/

/-- C2: a cache lookup hits iff some stored, non-expired entry has an
exactly equal base query, an exactly equal source-id set, and stored
negatives a subset of (or equal to) the requested negatives; storing
with negatives `∅` then looking up with `{x}` (same query/sources,
within the TTL) hits, while storing with `{x}` then looking up with `∅`
misses. -/
theorem claim_c2_cache_subset_law (ttl now now' : ℤ) (entries : List CacheEntry)
    (q x : String) (negs srcs : Finset String) (ps : List Product) :
    ((QueryCache.findSubsetMatch ttl entries q negs srcs now).1.isSome = true ↔
      ∃ e ∈ entries, now - e.timestamp < ttl ∧ e.baseQuery = q ∧
        e.sourceIds = srcs ∧ e.negativeTerms ⊆ negs) ∧
    (now' - now < ttl →
      (QueryCache.findSubsetMatch ttl (QueryCache.store [] q ∅ srcs ps now)
          q {x} srcs now').1 = some ps) ∧
    (QueryCache.findSubsetMatch ttl (QueryCache.store [] q {x} srcs ps now)
        q ∅ srcs now').1 = none := by
  refine ⟨?_, ?_, ?_⟩
  · unfold QueryCache.findSubsetMatch QueryCache.evictExpired
    simp only [Option.isSome_map', List.find?_isSome, List.mem_filter,
      QueryCache.entryMatches, Bool.and_eq_true, decide_eq_true_eq]
    constructor
    · rintro ⟨e, ⟨he, ht⟩, ⟨hb, hs⟩, hn⟩
      exact ⟨e, he, ht, hb, hs, hn⟩
    · rintro ⟨e, he, ht, hb, hs, hn⟩
      exact ⟨e, ⟨he, by simpa using ht⟩, ⟨hb, hs⟩, hn⟩
  · intro h
    unfold QueryCache.findSubsetMatch QueryCache.evictExpired QueryCache.store
    simp [QueryCache.entryMatches, h]
  · unfold QueryCache.findSubsetMatch QueryCache.evictExpired QueryCache.store
    simp [QueryCache.entryMatches, Finset.singleton_ne_empty,
      Finset.subset_empty]

/-- Witness for C2 at a concrete cache state. -/
theorem claim_c2_cache_subset_law_witness :
    (QueryCache.findSubsetMatch 10 (QueryCache.store [] "q" ∅ {"s"} [({ title := "t", price := 5 } : Product)] 0)
        "q" {"x"} {"s"} 1).1 = some [({ title := "t", price := 5 } : Product)] :=
  (claim_c2_cache_subset_law 10 0 1 [] "q" "x" ∅ {"s"} [({ title := "t", price := 5 } : Product)]).2.1 (by decide)

/-- Unfolding lemma for `runScrapers` on a cons cell. -/
theorem runScrapers_foldl_eq (batches : List (Except String (List Product))) :
    ∀ acc : List Product × List String,
      batches.foldl
        (fun acc batch =>
          match batch with
          | Except.ok ps => (acc.1 ++ ps, acc.2)
          | Except.error e => (acc.1, acc.2 ++ [e])) acc =
      (acc.1 ++ (SearchOrchestrator.runScrapers batches).1,
       acc.2 ++ (SearchOrchestrator.runScrapers batches).2) := by
  induction batches with
  | nil => intro acc; simp [SearchOrchestrator.runScrapers]
  | cons b bs ih =>
    intro acc
    unfold SearchOrchestrator.runScrapers
    simp only [List.foldl_cons]
    rw [ih, ih]
    cases b <;> simp

/-- `runScrapers` distributes over the leading batch. -/
theorem runScrapers_cons (b : Except String (List Product))
    (bs : List (Except String (List Product))) :
    SearchOrchestrator.runScrapers (b :: bs) =
      match b with
      | Except.ok ps => (ps ++ (SearchOrchestrator.runScrapers bs).1,
          (SearchOrchestrator.runScrapers bs).2)
      | Except.error e => ((SearchOrchestrator.runScrapers bs).1,
          e :: (SearchOrchestrator.runScrapers bs).2) := by
  unfold SearchOrchestrator.runScrapers
  simp only [List.foldl_cons]
  rw [runScrapers_foldl_eq]
  cases b <;> simp [SearchOrchestrator.runScrapers]

/-! ## Claim C6 — per-source failure isolation -/

/-- C6: in the concurrent dispatch, an exception from one source is
captured as an error string, the search still returns a `SearchResult`
(in this embedding `search` is a total function into `SearchResult`),
and every non-erroring sibling's batch is still included (as a
contiguous run) in the merged candidate list; on a cache miss the
search result's error list is exactly the dispatch's error list. -/
theorem claim_c6_partial_failure (batches : List (Except String (List Product)))
    (ttl now : ℤ) (q : String) (sourceIds : List String) (negs : List String)
    (cache : List CacheEntry) :
    (∀ i ps, batches.get? i = some (Except.ok ps) →
      ps <:+: (SearchOrchestrator.runScrapers batches).1) ∧
    (∀ i e, batches.get? i = some (Except.error e) →
      e ∈ (SearchOrchestrator.runScrapers batches).2) ∧
    ((QueryCache.findSubsetMatch ttl cache q negs.toFinset sourceIds.toFinset now).1 = none →
      (SearchOrchestrator.search ttl q sourceIds negs batches cache now).1.errors =
        (SearchOrchestrator.runScrapers batches).2) := by
  refine ⟨?_, ?_, ?_⟩
  · intro i ps h
    induction batches generalizing i with
    | nil => simp at h
    | cons b bs ih =>
      rw [runScrapers_cons]
      cases i with
      | zero =>
        simp only [List.get?_cons_zero, Option.some.injEq] at h
        subst h
        exact ⟨[], (SearchOrchestrator.runScrapers bs).1, by simp⟩
      | succ i =>
        simp only [List.get?_cons_succ] at h
        have hin := ih i h
        cases b with
        | ok ps' => exact hin.trans ⟨ps', [], by simp⟩
        | error e => simpa using hin
  · intro i e h
    induction batches generalizing i with
    | nil => simp at h
    | cons b bs ih =>
      rw [runScrapers_cons]
      cases i with
      | zero =>
        simp only [List.get?_cons_zero, Option.some.injEq] at h
        subst h
        simp
      | succ i =>
        simp only [List.get?_cons_succ] at h
        have hin := ih i h
        cases b with
        | ok ps' => simpa using hin
        | error e' => simp [hin]
  · intro h
    unfold SearchOrchestrator.search
    simp only [h]

/-- Witness for C6: one succeeding and one raising source. -/
theorem claim_c6_partial_failure_witness :
    ([({ title := "X", price := 1 } : Product)] <:+:
      (SearchOrchestrator.runScrapers
        [Except.ok [({ title := "X", price := 1 } : Product)], Except.error "boom"]).1) ∧
    ("boom" ∈ (SearchOrchestrator.runScrapers
        [Except.ok [({ title := "X", price := 1 } : Product)], Except.error "boom"]).2) ∧
    ((SearchOrchestrator.search 10 "q" ["s"] []
        [Except.ok [({ title := "X", price := 1 } : Product)], Except.error "boom"]
        [] 0).1.errors =
      (SearchOrchestrator.runScrapers
        [Except.ok [({ title := "X", price := 1 } : Product)], Except.error "boom"]).2) := by
  obtain ⟨h1, h2, h3⟩ := claim_c6_partial_failure
    [Except.ok [({ title := "X", price := 1 } : Product)], Except.error "boom"]
    10 0 "q" ["s"] [] []
  exact ⟨h1 0 _ rfl, h2 1 "boom" rfl, h3 rfl⟩

/-! ## Claim C10 — search-result accounting invariant -/

/-- C10: for every completed `search` and `execute_advanced_search`,
`total_before_filter = |products| + excluded_count + deduplicated_count`:
every validated candidate is either returned, excluded (keyword plus,
on the boolean path, AST removals) or deduplicated. -/
theorem claim_c10_accounting (ttl now : ℤ) (q : String) (sourceIds : List String)
    (negs : List String) (batches : List (Except String (List Product)))
    (oracle : String → List (Except String (List Product)))
    (cache : List CacheEntry) :
    ((SearchOrchestrator.search ttl q sourceIds negs batches cache now).1.totalBeforeFilter =
      (SearchOrchestrator.search ttl q sourceIds negs batches cache now).1.products.length +
      (SearchOrchestrator.search ttl q sourceIds negs batches cache now).1.excludedCount +
      (SearchOrchestrator.search ttl q sourceIds negs batches cache now).1.deduplicatedCount) ∧
    (∀ r cache', SearchOrchestrator.executeAdvancedSearch ttl q sourceIds negs oracle cache now =
        Except.ok (r, cache') →
      r.totalBeforeFilter = r.products.length + r.excludedCount + r.deduplicatedCount) := by
  constructor
  · cases hp : (QueryCache.findSubsetMatch ttl cache q negs.toFinset
        sourceIds.toFinset now).1 with
    | some cached =>
      simp only [SearchOrchestrator.search, hp]
      have h1 := filterByKeywords_length (ProductValidator.validate cached).1 negs
      have h2 := deduplicate_length
        (ProductFilter.filterByKeywords (ProductValidator.validate cached).1 negs).1
      omega
    | none =>
      simp only [SearchOrchestrator.search, hp]
      have h1 := filterByKeywords_length
        (ProductValidator.validate (SearchOrchestrator.runScrapers batches).1).1 negs
      have h2 := deduplicate_length
        (ProductFilter.filterByKeywords
          (ProductValidator.validate (SearchOrchestrator.runScrapers batches).1).1 negs).1
      omega
  · intro r cache' h
    unfold SearchOrchestrator.executeAdvancedSearch at h
    cases hq : QueryPlanner.parse q with
    | error e => rw [hq] at h; exact absurd h (by simp)
    | ok plan =>
      rw [hq] at h
      simp only [Except.ok.injEq, Prod.mk.injEq] at h
      obtain ⟨h1, -⟩ := h
      subst h1
      set loopEnd := plan.baseQueries.foldl
        (SearchOrchestrator.advStep ttl sourceIds
          (plan.globalNegatives ∪ negs.toFinset) oracle now)
        ⟨[], [], 0, 0, cache⟩ with hloop
      have hval := ProductValidator.validate loopEnd.allRaw
      have hfil := filterByKeywords_length
        ((ProductValidator.validate loopEnd.allRaw).1.filter
          (fun p => localEvaluate p.title plan.ast))
        ((plan.globalNegatives ∪ negs.toFinset).sort (· ≤ ·))
      have hded := deduplicate_length
        (ProductFilter.filterByKeywords
          ((ProductValidator.validate loopEnd.allRaw).1.filter
            (fun p => localEvaluate p.title plan.ast))
          ((plan.globalNegatives ∪ negs.toFinset).sort (· ≤ ·))).1
      have hle := List.length_filter_le
        (fun p => localEvaluate p.title plan.ast)
        (ProductValidator.validate loopEnd.allRaw).1
      simp only []
      omega

/-- Witness for C10 on a concrete advanced search. -/
theorem claim_c10_accounting_witness :
    ∃ (r : SearchResult) (cache' : List CacheEntry),
      SearchOrchestrator.executeAdvancedSearch 10 "collagen" ["s"] []
        (fun _ => [Except.ok [({ title := "Collagen X", price := 3 } : Product)]]) [] 0 =
        Except.ok (r, cache') ∧
      r.totalBeforeFilter = r.products.length + r.excludedCount + r.deduplicatedCount := by
  have hparse : QueryPlanner.parse "collagen" =
      Except.ok ⟨ASTNode.term "collagen", ["collagen"], ∅⟩ := by
    rw [QueryPlanner.parse,
      show tokenize "collagen" = [⟨TokenType.WORD, "collagen"⟩] from by
        simp [tokenize, tokenizeAux, isTokenChar, isWordChar, classifyWord, String.data]]
    rfl
  obtain ⟨r, cache', hr⟩ :
      ∃ (r : SearchResult) (cache' : List CacheEntry),
        SearchOrchestrator.executeAdvancedSearch 10 "collagen" ["s"] []
          (fun _ => [Except.ok [({ title := "Collagen X", price := 3 } : Product)]]) [] 0 =
          Except.ok (r, cache') := by
    unfold SearchOrchestrator.executeAdvancedSearch
    rw [hparse]
    exact ⟨_, _, rfl⟩
  exact ⟨r, cache', hr,
    (claim_c10_accounting 10 0 "collagen" ["s"] [] []
      (fun _ => [Except.ok [({ title := "Collagen X", price := 3 } : Product)]]) []).2
      r cache' hr⟩

/-! ## Claim C1 — DNF expansion and local evaluation of
`"A" AND ("B" OR "C")` -/

/-- C1: `QueryPlanner.parse` on `"A" AND ("B" OR "C")` produces exactly
two base queries whose set is `{"A B", "A C"}`, and the compiled AST
locally evaluates to true on any title containing both `A` and `B`
(case-insensitive substring) and to false on any title containing `B`
but not `A`. -/
theorem claim_c1_dnf_and_local_eval :
    (∃ plan, QueryPlanner.parse "\"A\" AND (\"B\" OR \"C\")" = Except.ok plan) ∧
    ∀ plan, QueryPlanner.parse "\"A\" AND (\"B\" OR \"C\")" = Except.ok plan →
      plan.baseQueries.length = 2 ∧
      "A B" ∈ plan.baseQueries ∧ "A C" ∈ plan.baseQueries ∧
      (∀ title, containsCI title "A" = true → containsCI title "B" = true →
        localEvaluate title plan.ast = true) ∧
      (∀ title, containsCI title "B" = true → containsCI title "A" = false →
        localEvaluate title plan.ast = false) := by
  have hp : QueryPlanner.parse "\"A\" AND (\"B\" OR \"C\")" =
      Except.ok ⟨ASTNode.and [ASTNode.phrase "A",
        ASTNode.or [ASTNode.phrase "B", ASTNode.phrase "C"]], ["A B", "A C"], ∅⟩ := by
    rw [QueryPlanner.parse,
      show tokenize "\"A\" AND (\"B\" OR \"C\")" =
          [⟨TokenType.PHRASE, "A"⟩, ⟨TokenType.AND, "AND"⟩, ⟨TokenType.LPAREN, "("⟩,
           ⟨TokenType.PHRASE, "B"⟩, ⟨TokenType.OR, "OR"⟩, ⟨TokenType.PHRASE, "C"⟩,
           ⟨TokenType.RPAREN, ")"⟩] from by
        simp [tokenize, tokenizeAux, isTokenChar, isWordChar, classifyWord, String.data]]
    rfl
  refine ⟨⟨_, hp⟩, ?_⟩
  intro plan h
  rw [hp] at h
  obtain rfl :
      (⟨ASTNode.and [ASTNode.phrase "A",
        ASTNode.or [ASTNode.phrase "B", ASTNode.phrase "C"]], ["A B", "A C"], ∅⟩ :
        QueryPlan) = plan := by
    cases h
    rfl
  refine ⟨rfl, by simp, by simp, ?_, ?_⟩
  · intro title hA hB
    simp [localEvaluate, localEvaluateAll, localEvaluateAny, hA, hB]
  · intro title hB hA
    simp [localEvaluate, localEvaluateAll, localEvaluateAny, hA]

/-- Witness for C1 at two concrete titles. -/
theorem claim_c1_witness :
    ∃ plan, QueryPlanner.parse "\"A\" AND (\"B\" OR \"C\")" = Except.ok plan ∧
      localEvaluate "my A and B product" plan.ast = true ∧
      localEvaluate "only B here" plan.ast = false := by
  obtain ⟨⟨plan, hp⟩, hall⟩ := claim_c1_dnf_and_local_eval
  obtain ⟨-, -, -, htrue, hfalse⟩ := hall plan hp
  exact ⟨plan, hp, htrue "my A and B product" (by decide) (by decide),
    hfalse "only B here" (by decide) (by decide)⟩

/-! ## Claim C4 — deduplicator idempotence

The claim fails on the code: a price-based replacement
(`kept[existing_idx] = product`) does not register the replacement's own
URL/title keys, so a first run's output can contain two products sharing
a key, and a second run removes more.  Idempotence does hold whenever
the first run's output has pairwise-distinct keys. -/

/-- Pairwise-distinct dedup keys: no two products share a
`source:normalised-title` key, and no two share a nonempty normalised
URL. -/
def KeysDistinct (products : List Product) : Prop :=
  (products.map ProductDeduplicator.titleKeyOf).Nodup ∧
  ((products.map (fun p => ProductDeduplicator.normaliseUrl p.url)).filter
    (fun u => u ≠ "")).Nodup

instance : DecidablePred KeysDistinct := fun products => by
  unfold KeysDistinct; infer_instance

/-- Over a state whose dictionaries know none of the incoming keys, a
key-distinct product list passes through the dedup fold untouched. -/
theorem dedup_foldl_of_fresh (l : List Product) :
    ∀ st : ProductDeduplicator.DedupState,
      (∀ p ∈ l, ProductDeduplicator.normaliseUrl p.url ≠ "" →
        st.seenUrls.lookup (ProductDeduplicator.normaliseUrl p.url) = none) →
      (∀ p ∈ l, st.seenTitles.lookup (ProductDeduplicator.titleKeyOf p) = none) →
      KeysDistinct l →
      (l.foldl ProductDeduplicator.dedupStep st).kept = st.kept ++ l ∧
        (l.foldl ProductDeduplicator.dedupStep st).removed = st.removed := by
  induction l with
  | nil => intro st _ _ _; simp
  | cons p ps ih =>
    intro st hurl htitle hdist
    obtain ⟨hdt, hdu⟩ := hdist
    simp only [List.map_cons, List.nodup_cons, List.filter_cons] at hdt hdu
    have hstep : ProductDeduplicator.dedupStep st p =
        { seenUrls :=
            if ProductDeduplicator.normaliseUrl p.url ≠ "" then
              (ProductDeduplicator.normaliseUrl p.url, st.kept.length) :: st.seenUrls
            else st.seenUrls,
          seenTitles := (ProductDeduplicator.titleKeyOf p, st.kept.length) :: st.seenTitles,
          kept := st.kept ++ [p],
          removed := st.removed } := by
      have h1 : (if ProductDeduplicator.normaliseUrl p.url ≠ "" then
          st.seenUrls.lookup (ProductDeduplicator.normaliseUrl p.url) else none) = none := by
        split
        · exact hurl p (by simp) (by assumption)
        · rfl
      simp only [ProductDeduplicator.dedupStep, h1, htitle p (by simp)]
    have hu : ∀ q ∈ ps, ProductDeduplicator.normaliseUrl q.url ≠ "" →
        (ProductDeduplicator.dedupStep st p).seenUrls.lookup
          (ProductDeduplicator.normaliseUrl q.url) = none := by
      intro q hq hqu
      rw [hstep]
      simp only []
      split
      · next hpu =>
        have hne : ProductDeduplicator.normaliseUrl q.url ≠
            ProductDeduplicator.normaliseUrl p.url := by
          intro hEq
          have hmem : ProductDeduplicator.normaliseUrl p.url ∈
              ((ps.map (fun r => ProductDeduplicator.normaliseUrl r.url)).filter
                (fun u => u ≠ "")) := by
            rw [← hEq]
            exact List.mem_filter.2 ⟨List.mem_map_of_mem _ hq, by simpa using hqu⟩
          rw [if_pos (by simpa using hpu)] at hdu
          exact (List.nodup_cons.mp hdu).1 hmem
        rw [show (List.lookup (ProductDeduplicator.normaliseUrl q.url)
            ((ProductDeduplicator.normaliseUrl p.url, st.kept.length) :: st.seenUrls)) =
            List.lookup (ProductDeduplicator.normaliseUrl q.url) st.seenUrls from by
          simp [List.lookup, beq_eq_false_iff_ne.mpr hne]]
        exact hurl q (by simp [hq]) hqu
      · exact hurl q (by simp [hq]) hqu
    have ht : ∀ q ∈ ps,
        (ProductDeduplicator.dedupStep st p).seenTitles.lookup
          (ProductDeduplicator.titleKeyOf q) = none := by
      intro q hq
      rw [hstep]
      simp only []
      have hne : ProductDeduplicator.titleKeyOf q ≠ ProductDeduplicator.titleKeyOf p := by
        intro hEq
        exact hdt.1 (hEq ▸ List.mem_map_of_mem _ hq)
      rw [show (List.lookup (ProductDeduplicator.titleKeyOf q)
          ((ProductDeduplicator.titleKeyOf p, st.kept.length) :: st.seenTitles)) =
          List.lookup (ProductDeduplicator.titleKeyOf q) st.seenTitles from by
        simp [List.lookup, beq_eq_false_iff_ne.mpr hne]]
      exact htitle q (by simp [hq])
    have hd : KeysDistinct ps := by
      refine ⟨hdt.2, ?_⟩
      split at hdu
      · exact (List.nodup_cons.mp hdu).2
      · exact hdu
    simp only [List.foldl_cons]
    have hrec := ih (ProductDeduplicator.dedupStep st p) hu ht hd
    rw [hrec.1, hrec.2, hstep]
    simp

/-- C4 (amended): a second `deduplicate` run on a first run's output
returns that output unchanged with a removed count of 0 *provided* the
first run's output has pairwise-distinct dedup keys; a price-based
replacement in the first run can produce colliding keys, in which case
a second run removes more (see `claim_c4_counterexample`). -/
theorem claim_c4_dedup_idempotent_on_distinct_keys (products : List Product)
    (h : KeysDistinct ((ProductDeduplicator.deduplicate products).1)) :
    ProductDeduplicator.deduplicate ((ProductDeduplicator.deduplicate products).1) =
      ((ProductDeduplicator.deduplicate products).1, 0) := by
  set l := (ProductDeduplicator.deduplicate products).1 with hl
  unfold ProductDeduplicator.deduplicate
  split
  · next he => simp [List.isEmpty_iff.1 he]
  · have := dedup_foldl_of_fresh l ⟨[], [], [], 0⟩ (by simp [List.lookup])
      (by simp [List.lookup]) h
    rcases hres : l.foldl ProductDeduplicator.dedupStep ⟨[], [], [], 0⟩ with ⟨su, st', kept, removed⟩
    rw [hres] at this
    simp only at this
    simp [this.1, this.2]

/-- Witness for C4 on a key-distinct output. -/
theorem claim_c4_witness :
    ProductDeduplicator.deduplicate
        ((ProductDeduplicator.deduplicate
          [({ title := "Alpha", price := 3, url := "https://a/1", source := "s" } : Product),
           ({ title := "Beta", price := 4, url := "https://a/2", source := "s" } : Product)]).1) =
      ((ProductDeduplicator.deduplicate
          [({ title := "Alpha", price := 3, url := "https://a/1", source := "s" } : Product),
           ({ title := "Beta", price := 4, url := "https://a/2", source := "s" } : Product)]).1, 0) :=
  claim_c4_dedup_idempotent_on_distinct_keys _ (by decide)

/-- C4 counterexample: a URL-duplicate replacement makes the first
run's output contain two products with the same `source:title` key, so
the second run removes one — `deduplicate` is not idempotent as
claimed. -/
theorem claim_c4_counterexample :
    ProductDeduplicator.deduplicate
        ((ProductDeduplicator.deduplicate
          [({ title := "a", price := 10, url := "u", source := "s" } : Product),
           ({ title := "b", price := 10, url := "v", source := "s" } : Product),
           ({ title := "b", price := 5, url := "u", source := "s" } : Product)]).1) ≠
      ((ProductDeduplicator.deduplicate
          [({ title := "a", price := 10, url := "u", source := "s" } : Product),
           ({ title := "b", price := 10, url := "v", source := "s" } : Product),
           ({ title := "b", price := 5, url := "u", source := "s" } : Product)]).1, 0) := by
  decide

/-! ## Claim C8 — cache isolation under caller mutation -/

/-- C8: after a hit returns a (copied) list reference `r`, overwriting
the list behind `r` (append / remove / reorder, modelled as replacing
its contents wholesale) leaves every cached entry's list untouched, and
every subsequent lookup — any key, any time — observes exactly the
products it would have observed without the mutation. -/
theorem claim_c8_cache_isolation (ttl now : ℤ) (entries : List CacheEntryRef)
    (q : String) (negs srcs : Finset String) (heap : Heap)
    (hlive : QueryCache.RefsLive entries heap)
    (r : Nat) (entries' : List CacheEntryRef) (heap' : Heap)
    (hfind : QueryCache.findSubsetMatchRef ttl entries q negs srcs now heap =
      (some r, entries', heap')) :
    ∀ (l' : List Product) (q₂ : String) (negs₂ srcs₂ : Finset String) (now₂ : ℤ),
      (∀ e ∈ entries', (heap'.write r l').lists e.resultsRef = heap'.lists e.resultsRef) ∧
      QueryCache.lookupContents ttl entries' q₂ negs₂ srcs₂ now₂ (heap'.write r l') =
        QueryCache.lookupContents ttl entries' q₂ negs₂ srcs₂ now₂ heap' := by
  intro l' q₂ negs₂ srcs₂ now₂
  -- Unpack the hit: `r` is the fresh cell `heap.next`, `entries'` the
  -- post-eviction entries, `heap'` the heap extended with the copy.
  unfold QueryCache.findSubsetMatchRef at hfind
  cases hf : (entries.filter (fun e => decide (now - e.timestamp < ttl))).find?
      (QueryCache.entryMatchesRef q negs srcs) with
  | none => simp only [hf] at hfind; simp at hfind
  | some e0 =>
    simp only [hf] at hfind
    rw [Prod.mk.injEq, Prod.mk.injEq, Option.some.injEq] at hfind
    obtain ⟨rfl, rfl, rfl⟩ := hfind
    have hrlt : ∀ e ∈ entries.filter (fun e => decide (now - e.timestamp < ttl)),
        e.resultsRef ≠ (heap.alloc (heap.lists e0.resultsRef)).1 := by
      intro e he
      have := hlive e (List.mem_filter.1 he).1
      simp only [Heap.alloc]
      omega
    have hwrite : ∀ e ∈ entries.filter (fun e => decide (now - e.timestamp < ttl)),
        (((heap.alloc (heap.lists e0.resultsRef)).2).write
            (heap.alloc (heap.lists e0.resultsRef)).1 l').lists e.resultsRef =
          ((heap.alloc (heap.lists e0.resultsRef)).2).lists e.resultsRef := by
      intro e he
      simp [Heap.write, hrlt e he]
    refine ⟨hwrite, ?_⟩
    unfold QueryCache.lookupContents QueryCache.findSubsetMatchRef
    cases hf2 : ((entries.filter (fun e => decide (now - e.timestamp < ttl))).filter
        (fun e => decide (now₂ - e.timestamp < ttl))).find?
        (QueryCache.entryMatchesRef q₂ negs₂ srcs₂) with
    | none => simp only [hf2]
    | some e2 =>
      simp only [hf2]
      have he2 : e2 ∈ entries.filter (fun e => decide (now - e.timestamp < ttl)) :=
        (List.mem_filter.1 (List.mem_of_find?_eq_some hf2)).1
      have hne := hrlt e2 he2
      simp [Heap.alloc, Heap.write] at hne ⊢
      exact fun h => absurd h hne

/-- Witness for C8 on a one-entry cache. -/
theorem claim_c8_cache_isolation_witness :
    ∃ (r : Nat) (entries' : List CacheEntryRef) (heap' : Heap),
      QueryCache.findSubsetMatchRef 10 [⟨"q", ∅, {"s"}, 0, 0⟩] "q" ∅ {"s"} 0
          ⟨fun i => if i = 0 then [({ title := "X", price := 2 } : Product)] else [], 1⟩ =
        (some r, entries', heap') ∧
      QueryCache.lookupContents 10 entries' "q" ∅ {"s"} 0 (heap'.write r []) =
        QueryCache.lookupContents 10 entries' "q" ∅ {"s"} 0 heap' := by
  refine ⟨_, _, _, rfl, ?_⟩
  exact ((claim_c8_cache_isolation 10 0 [⟨"q", ∅, {"s"}, 0, 0⟩] "q" ∅ {"s"}
      ⟨fun i => if i = 0 then [({ title := "X", price := 2 } : Product)] else [], 1⟩
      (by intro e he; simp at he; subst he; decide) _ _ _ rfl) [] "q" ∅ {"s"} 0).2

/-! ## Claim C3 — circuit breaker state machine

"Failed attempt" is read, as in the spec and the repository's own
tests, as one failed logical fetch call (a `_fetch_get` invocation that
exhausts its retries); each such call performs up to `MAX_RETRIES`
network attempts. -/

namespace BaseScraper

/-- Every outcome a call's retry loop will see is a failure. -/
def AllFail (outcomes : Nat → AttemptOutcome) : Prop :=
  ∀ i, outcomes i ≠ AttemptOutcome.success

/-- Run a sequence of fetch calls, each with its own outcome oracle and
wall-clock time, threading the per-instance state. -/
def runCalls (s : ScraperSettings) (calls : List ((Nat → AttemptOutcome) × ℤ))
    (st : ScraperState) : ScraperState :=
  calls.foldl (fun st c => (fetchGet s c.1 st c.2).2.1) st

/-- An all-failing retry loop returns no success, performs
`remaining` attempts, and changes only the adaptive delay. -/
theorem fetchLoop_allFail (s : ScraperSettings) (outcomes : Nat → AttemptOutcome)
    (hfail : AllFail outcomes) :
    ∀ (remaining idx : Nat) (st : ScraperState),
      (fetchLoop s outcomes remaining idx st).1 = false ∧
      (fetchLoop s outcomes remaining idx st).2.2 = remaining ∧
      (fetchLoop s outcomes remaining idx st).2.1.consecutiveFailures =
        st.consecutiveFailures ∧
      (fetchLoop s outcomes remaining idx st).2.1.circuitOpen = st.circuitOpen ∧
      (fetchLoop s outcomes remaining idx st).2.1.circuitOpenedAt = st.circuitOpenedAt := by
  intro remaining
  induction remaining with
  | zero => intro idx st; simp [fetchLoop]
  | succ k ih =>
    intro idx st
    cases h : outcomes idx with
    | success => exact absurd h (hfail idx)
    | invalidResponse => simp [fetchLoop, h, ih, escalateDelay]
    | httpStatus code =>
      simp only [fetchLoop, h]
      split <;> simp [ih, escalateDelay]
    | transportError => simp [fetchLoop, h, ih]

/-- A failing call from a closed breaker: no result, a full round of
`MAX_RETRIES` attempts, the counter bumped, and the breaker opened (with
`circuitOpenedAt = now`) exactly when the bumped counter reaches the
threshold. -/
theorem fetchGet_fail (s : ScraperSettings) (o : Nat → AttemptOutcome)
    (st : ScraperState) (now : ℤ) (hclosed : st.circuitOpen = false)
    (hfail : AllFail o) :
    (fetchGet s o st now).1 = none ∧
    (fetchGet s o st now).2.2 = s.maxRetries ∧
    (fetchGet s o st now).2.1.consecutiveFailures = st.consecutiveFailures + 1 ∧
    (s.circuitBreakerThreshold ≤ st.consecutiveFailures + 1 →
      (fetchGet s o st now).2.1.circuitOpen = true ∧
      (fetchGet s o st now).2.1.circuitOpenedAt = now) ∧
    (st.consecutiveFailures + 1 < s.circuitBreakerThreshold →
      (fetchGet s o st now).2.1.circuitOpen = false ∧
      (fetchGet s o st now).2.1.circuitOpenedAt = st.circuitOpenedAt) := by
  obtain ⟨h1, h2, h3, h4, h5⟩ := fetchLoop_allFail s o hfail s.maxRetries 0 st
  have hchk : checkCircuit s st now = (false, st) := by
    unfold checkCircuit
    rw [hclosed]
    simp
  simp only [fetchGet, hchk, Bool.false_eq_true, if_false, h1, recordFailure,
    h3, h4, h5]
  refine ⟨trivial, h2, ?_, ?_, ?_⟩
  · split <;> rfl
  · intro hth
    rw [if_pos (by omega)]
    exact ⟨rfl, rfl⟩
  · intro hth
    rw [if_neg (by omega)]
    exact ⟨hclosed, rfl⟩

/-- Consecutive failing calls below the threshold leave the breaker
closed and just count failures. -/
theorem runCalls_below (s : ScraperSettings) :
    ∀ (calls : List ((Nat → AttemptOutcome) × ℤ)) (st : ScraperState),
      (∀ c ∈ calls, AllFail c.1) → st.circuitOpen = false →
      st.consecutiveFailures + calls.length < s.circuitBreakerThreshold →
      (runCalls s calls st).circuitOpen = false ∧
      (runCalls s calls st).consecutiveFailures =
        st.consecutiveFailures + calls.length ∧
      (runCalls s calls st).circuitOpenedAt = st.circuitOpenedAt := by
  intro calls
  induction calls with
  | nil => intro st _ hc _; unfold runCalls; simp [hc]
  | cons c cs ih =>
    intro st hfail hclosed hlen
    obtain ⟨g1, g2, g3, g4, g5⟩ := fetchGet_fail s c.1 st c.2 hclosed (hfail c (by simp))
    have hnext := g5 (by simp at hlen; omega)
    have hrest := ih ((fetchGet s c.1 st c.2).2.1)
      (fun d hd => hfail d (by simp [hd])) hnext.1
      (by rw [g3]; simp at hlen ⊢; omega)
    unfold runCalls at hrest ⊢
    simp only [List.foldl_cons]
    refine ⟨hrest.1, ?_, ?_⟩
    · rw [hrest.2.1, g3]; simp; omega
    · rw [hrest.2.2, hnext.2]

/-- A retry loop with at least one round performs at least one network
attempt. -/
theorem fetchLoop_pos (s : ScraperSettings) (o : Nat → AttemptOutcome) :
    ∀ (k idx : Nat) (st : ScraperState), 0 < (fetchLoop s o (k + 1) idx st).2.2 := by
  intro k idx st
  cases ho : o idx <;> simp [fetchLoop, ho]

end BaseScraper

/-- C3: (a) from a fresh instance, fewer than `threshold` consecutive
failed calls leave the breaker closed, and exactly `threshold` open it;
(b) while open, before the cooldown, a call performs zero network
attempts and returns no result with the state untouched; (c) once the
cooldown has elapsed the call is let through as the probe (at least one
attempt): a validated success closes the breaker and resets counters
and delay, a failure reopens it with the cooldown restarted at the
probe's time, and the following call within the new cooldown is blocked
again. -/
theorem claim_c3_circuit_breaker (s : BaseScraper.ScraperSettings) :
    (∀ calls : List ((Nat → BaseScraper.AttemptOutcome) × ℤ),
      (∀ c ∈ calls, BaseScraper.AllFail c.1) →
      (calls.length < s.circuitBreakerThreshold →
        (BaseScraper.runCalls s calls (BaseScraper.initialState s)).circuitOpen = false ∧
        (BaseScraper.runCalls s calls (BaseScraper.initialState s)).consecutiveFailures =
          calls.length) ∧
      (calls.length = s.circuitBreakerThreshold → 0 < calls.length →
        (BaseScraper.runCalls s calls (BaseScraper.initialState s)).circuitOpen = true)) ∧
    (∀ (st : BaseScraper.ScraperState) (o : Nat → BaseScraper.AttemptOutcome) (now : ℤ),
      st.circuitOpen = true → now - st.circuitOpenedAt < s.circuitBreakerCooldown →
      BaseScraper.fetchGet s o st now = (none, st, 0)) ∧
    (∀ (st : BaseScraper.ScraperState) (o : Nat → BaseScraper.AttemptOutcome) (now : ℤ),
      st.circuitOpen = true → s.circuitBreakerCooldown ≤ now - st.circuitOpenedAt →
      (0 < s.maxRetries → 0 < (BaseScraper.fetchGet s o st now).2.2) ∧
      (o 0 = BaseScraper.AttemptOutcome.success → 0 < s.maxRetries →
        BaseScraper.fetchGet s o st now = (some (), ⟨s.requestDelay, 0, false, 0⟩, 1)) ∧
      (BaseScraper.AllFail o → s.circuitBreakerThreshold ≤ st.consecutiveFailures →
        (BaseScraper.fetchGet s o st now).1 = none ∧
        (BaseScraper.fetchGet s o st now).2.1.circuitOpen = true ∧
        (BaseScraper.fetchGet s o st now).2.1.circuitOpenedAt = now ∧
        (∀ (o₂ : Nat → BaseScraper.AttemptOutcome) (now₂ : ℤ),
          now₂ - now < s.circuitBreakerCooldown →
          BaseScraper.fetchGet s o₂ ((BaseScraper.fetchGet s o st now).2.1) now₂ =
            (none, (BaseScraper.fetchGet s o st now).2.1, 0)))) := by
  have hblocked : ∀ (st : BaseScraper.ScraperState) (o : Nat → BaseScraper.AttemptOutcome)
      (now : ℤ), st.circuitOpen = true →
      now - st.circuitOpenedAt < s.circuitBreakerCooldown →
      BaseScraper.fetchGet s o st now = (none, st, 0) := by
    intro st o now hopen hcool
    have hchk : BaseScraper.checkCircuit s st now = (true, st) := by
      unfold BaseScraper.checkCircuit
      rw [hopen]
      simp only [Bool.not_true, Bool.false_eq_true, if_false]
      rw [if_neg (by omega)]
    simp [BaseScraper.fetchGet, hchk]
  refine ⟨?_, hblocked, ?_⟩
  · intro calls hfail
    constructor
    · intro hlen
      have := BaseScraper.runCalls_below s calls (BaseScraper.initialState s) hfail rfl
        (by simpa [BaseScraper.initialState] using hlen)
      exact ⟨this.1, by simpa [BaseScraper.initialState] using this.2.1⟩
    · intro hlen hpos
      obtain ⟨front, last, rfl⟩ : ∃ front last, calls = front ++ [last] := by
        rcases List.eq_nil_or_concat calls with h | ⟨front, last, h⟩
        · rw [h] at hpos; simp at hpos
        · exact ⟨front, last, h.trans (List.concat_eq_append _ _)⟩
      have hfront := BaseScraper.runCalls_below s front (BaseScraper.initialState s)
        (fun c hc => hfail c (by simp [hc]))
        rfl (by simp [BaseScraper.initialState] at hlen ⊢; omega)
      have hstep := BaseScraper.fetchGet_fail s last.1
        (BaseScraper.runCalls s front (BaseScraper.initialState s)) last.2
        hfront.1 (hfail last (by simp))
      have hopen := (hstep.2.2.2.1 (by
        rw [hfront.2.1]
        simp [BaseScraper.initialState] at hlen ⊢
        omega)).1
      unfold BaseScraper.runCalls at hopen ⊢
      rw [List.foldl_append]
      simpa [BaseScraper.runCalls, List.foldl_cons] using hopen
  · intro st o now hopen hcool
    have hchk : BaseScraper.checkCircuit s st now = (false, { st with circuitOpen := false }) := by
      unfold BaseScraper.checkCircuit
      rw [hopen]
      simp only [Bool.not_true, Bool.false_eq_true, if_false]
      rw [if_pos (by omega)]
    refine ⟨?_, ?_, ?_⟩
    · intro hret
      obtain ⟨k, hk⟩ : ∃ k, s.maxRetries = k + 1 := ⟨s.maxRetries - 1, by omega⟩
      have hpos := BaseScraper.fetchLoop_pos s o k 0 { st with circuitOpen := false }
      simp only [BaseScraper.fetchGet, hchk, hk]
      by_cases hcase : (BaseScraper.fetchLoop s o (k + 1) 0
          { st with circuitOpen := false }).1 = true
      · rw [if_pos hcase]; exact hpos
      · rw [if_neg hcase]; exact hpos
    · intro hsucc hret
      obtain ⟨k, hk⟩ : ∃ k, s.maxRetries = k + 1 := ⟨s.maxRetries - 1, by omega⟩
      simp only [BaseScraper.fetchGet, hchk, hk]
      simp [BaseScraper.fetchLoop, hsucc, BaseScraper.recordSuccess]
    · intro hfail hth
      obtain ⟨g1, g2, g3, g4, g5⟩ := BaseScraper.fetchGet_fail s o
        { st with circuitOpen := false } now rfl hfail
      have hgoal : BaseScraper.fetchGet s o st now =
          BaseScraper.fetchGet s o { st with circuitOpen := false } now := by
        have hchk2 : BaseScraper.checkCircuit s { st with circuitOpen := false } now =
            (false, { st with circuitOpen := false }) := by
          unfold BaseScraper.checkCircuit
          simp
        simp only [BaseScraper.fetchGet, hchk, hchk2]
      rw [hgoal]
      have htrip := g4 (by simp; omega)
      refine ⟨g1, htrip.1, htrip.2, ?_⟩
      intro o₂ now₂ hcool₂
      exact hblocked _ o₂ now₂ htrip.1 (by rw [htrip.2]; omega)

/-- Witness for C3 at threshold 3, cooldown 60, 3 retries. -/
theorem claim_c3_circuit_breaker_witness :
    (BaseScraper.runCalls ⟨2, 3, 3, 60, 8⟩
        [(fun _ => BaseScraper.AttemptOutcome.httpStatus 500, 0),
         (fun _ => BaseScraper.AttemptOutcome.httpStatus 500, 1),
         (fun _ => BaseScraper.AttemptOutcome.httpStatus 500, 2)]
        (BaseScraper.initialState ⟨2, 3, 3, 60, 8⟩)).circuitOpen = true ∧
    BaseScraper.fetchGet ⟨2, 3, 3, 60, 8⟩
        (fun _ => BaseScraper.AttemptOutcome.httpStatus 500)
        ⟨2, 3, true, 2⟩ 10 = (none, ⟨2, 3, true, 2⟩, 0) ∧
    BaseScraper.fetchGet ⟨2, 3, 3, 60, 8⟩
        (fun _ => BaseScraper.AttemptOutcome.success)
        ⟨2, 3, true, 0⟩ 60 = (some (), ⟨2, 0, false, 0⟩, 1) := by
  obtain ⟨ha, hb, hc⟩ := claim_c3_circuit_breaker ⟨2, 3, 3, 60, 8⟩
  refine ⟨(ha _ ?_).2 rfl (by decide), hb _ _ _ rfl (by decide),
    (hc ⟨2, 3, true, 0⟩ _ 60 rfl (by decide)).2.1 rfl (by decide)⟩
  intro c hmem
  fin_cases hmem <;> exact fun i h => by simp at h

/-! ## Claim C7 — boolean-syntax detection

Set-theoretic reading of the regex `\bAND\b|\bOR\b|[(")]`
(IGNORECASE): the spec-side predicates below are written from the
claim's words and proved equivalent to the scanner. -/

/-- The literal word AND or OR, case-insensitively. -/
def BoolKeyword (w : List Char) : Prop :=
  w.map Char.toUpper = "AND".data ∨ w.map Char.toUpper = "OR".data

/-- The `\b` on the left of the keyword: the preceding character (the
last of `pre`, or the scanner's carried previous character when `pre`
is empty) is not a word character. -/
def LeftBoundaryOk (prev : Option Char) (pre : List Char) : Prop :=
  match pre.getLast? with
  | some d => isWordChar d = false
  | none => boundaryLeft prev = true

/-- A keyword occurrence with word boundaries somewhere in `cs`, given
the character preceding `cs` (if any). -/
def KeywordMatchFrom (prev : Option Char) (cs : List Char) : Prop :=
  ∃ pre w post, cs = pre ++ w ++ post ∧ BoolKeyword w ∧ LeftBoundaryOk prev pre ∧
    (∀ d, post.head? = some d → isWordChar d = false)

/-- The claim's criterion, minus the curly quotes: the word AND or OR
at word boundaries (case-insensitive), a parenthesis, or a double
quote. -/
def SpecHasBooleanSyntax (s : String) : Prop :=
  (∃ c ∈ s.data, c = '(' ∨ c = ')' ∨ c = '"') ∨ KeywordMatchFrom none s.data

/-- The claim's criterion exactly as stated, with curly double quotes
included. -/
def ClaimHasBooleanSyntax (s : String) : Prop :=
  (∃ c ∈ s.data, c = '(' ∨ c = ')' ∨ c = '"' ∨ c = '“' ∨ c = '”') ∨
    KeywordMatchFrom none s.data

theorem matchANDHere_iff (cs : List Char) :
    matchANDHere cs = true ↔
      ∃ w post, cs = w ++ post ∧ w.map Char.toUpper = "AND".data ∧
        (∀ d, post.head? = some d → isWordChar d = false) := by
  constructor
  · intro h
    rcases cs with _ | ⟨a, _ | ⟨n, _ | ⟨d, rest⟩⟩⟩ <;>
      simp only [matchANDHere, Bool.and_eq_true, decide_eq_true_eq,
        Bool.false_eq_true] at h
    obtain ⟨⟨⟨h1, h2⟩, h3⟩, h4⟩ := h
    refine ⟨[a, n, d], rest, by simp, by simp [String.data, h1, h2, h3], ?_⟩
    revert h4
    cases rest with
    | nil => intro h4 e he; simp at he
    | cons r rs =>
      intro h4 e he
      simp only [List.head?_cons, Option.some.injEq] at he
      subst he
      simpa [boundaryRight] using h4
  · rintro ⟨w, post, rfl, hw, hpost⟩
    have hl : w.length = 3 := by simpa using congrArg List.length hw
    rcases w with _ | ⟨a, _ | ⟨n, _ | ⟨d, _ | ⟨e, t⟩⟩⟩⟩ <;> simp at hl
    simp only [String.data, List.map_cons, List.map_nil, List.cons.injEq,
      and_true] at hw
    obtain ⟨h1, h2, h3⟩ := hw
    have hbd : boundaryRight post = true := by
      cases post with
      | nil => simp [boundaryRight]
      | cons r rs =>
        simp only [boundaryRight]
        simpa using hpost r (by simp)
    simp [matchANDHere, h1, h2, h3, hbd]

theorem matchORHere_iff (cs : List Char) :
    matchORHere cs = true ↔
      ∃ w post, cs = w ++ post ∧ w.map Char.toUpper = "OR".data ∧
        (∀ d, post.head? = some d → isWordChar d = false) := by
  constructor
  · intro h
    rcases cs with _ | ⟨o, _ | ⟨r, rest⟩⟩ <;>
      simp only [matchORHere, Bool.and_eq_true, decide_eq_true_eq,
        Bool.false_eq_true] at h
    obtain ⟨⟨h1, h2⟩, h3⟩ := h
    refine ⟨[o, r], rest, by simp, by simp [String.data, h1, h2], ?_⟩
    revert h3
    cases rest with
    | nil => intro h3 e he; simp at he
    | cons x xs =>
      intro h3 e he
      simp only [List.head?_cons, Option.some.injEq] at he
      subst he
      simpa [boundaryRight] using h3
  · rintro ⟨w, post, rfl, hw, hpost⟩
    have hl : w.length = 2 := by simpa using congrArg List.length hw
    rcases w with _ | ⟨o, _ | ⟨r, _ | ⟨e, t⟩⟩⟩ <;> simp at hl
    simp only [String.data, List.map_cons, List.map_nil, List.cons.injEq,
      and_true] at hw
    obtain ⟨h1, h2⟩ := hw
    have hbd : boundaryRight post = true := by
      cases post with
      | nil => simp [boundaryRight]
      | cons x xs =>
        simp only [boundaryRight]
        simpa using hpost x (by simp)
    simp [matchORHere, h1, h2, hbd]

theorem leftBoundaryOk_cons (prev : Option Char) (c : Char) (pre : List Char) :
    LeftBoundaryOk prev (c :: pre) ↔ LeftBoundaryOk (some c) pre := by
  cases pre with
  | nil => simp [LeftBoundaryOk, boundaryLeft]
  | cons x xs =>
    unfold LeftBoundaryOk
    rw [List.getLast?_cons_cons]
    cases hxl : (x :: xs).getLast? with
    | none =>
      have : (x :: xs).getLast?.isSome := List.getLast?_isSome.2 (by simp)
      rw [hxl] at this
      simp at this
    | some d => simp [hxl]

theorem keywordMatchFrom_cons (prev : Option Char) (c : Char) (rest : List Char) :
    KeywordMatchFrom prev (c :: rest) ↔
      (boundaryLeft prev = true ∧
        ∃ w post, c :: rest = w ++ post ∧ BoolKeyword w ∧
          (∀ d, post.head? = some d → isWordChar d = false)) ∨
      KeywordMatchFrom (some c) rest := by
  constructor
  · rintro ⟨pre, w, post, heq, hw, hleft, hright⟩
    cases pre with
    | nil =>
      left
      refine ⟨?_, w, post, by simpa using heq, hw, hright⟩
      simpa [LeftBoundaryOk] using hleft
    | cons p ps =>
      right
      simp only [List.cons_append] at heq
      obtain ⟨rfl, hrest⟩ : p = c ∧ rest = ps ++ w ++ post := by
        have h1 := congrArg List.head? heq
        have h2 := congrArg List.tail heq
        simp at h1 h2
        exact ⟨h1.symm, by simpa [List.append_assoc] using h2⟩
      exact ⟨ps, w, post, hrest, hw, (leftBoundaryOk_cons prev p ps).1 hleft, hright⟩
  · rintro (⟨hb, w, post, heq, hw, hright⟩ | ⟨pre, w, post, heq, hw, hleft, hright⟩)
    · exact ⟨[], w, post, by simpa using heq, hw, by simpa [LeftBoundaryOk] using hb,
        hright⟩
    · exact ⟨c :: pre, w, post, by simp [heq], hw,
        (leftBoundaryOk_cons prev c pre).2 hleft, hright⟩

theorem booleanScan_iff (cs : List Char) :
    ∀ prev, booleanScan prev cs = true ↔
      (∃ c ∈ cs, c = '(' ∨ c = ')' ∨ c = '"') ∨ KeywordMatchFrom prev cs := by
  induction cs with
  | nil =>
    intro prev
    simp only [booleanScan, List.not_mem_nil]
    constructor
    · intro h; simp at h
    · rintro (⟨c, hc, -⟩ | ⟨pre, w, post, heq, hw, -, -⟩)
      · simp at hc
      · have hw0 : w = [] := by
          have hlen := congrArg List.length heq
          simp at hlen
          exact List.eq_nil_of_length_eq_zero (by omega)
        subst hw0
        rcases hw with hw | hw <;> simp [String.data] at hw
  | cons c rest ih =>
    intro prev
    by_cases hc : c = '(' ∨ c = ')' ∨ c = '"'
    · constructor
      · intro _
        exact Or.inl ⟨c, by simp, hc⟩
      · intro _
        unfold booleanScan
        rw [if_pos (by rcases hc with h | h | h <;> simp [h])]
    · have hcb : (c = '(' || c = ')' || c = '"') = false := by
        rcases Classical.em (c = '(') with h | h
        · exact absurd (Or.inl h) hc
        · rcases Classical.em (c = ')') with h2 | h2
          · exact absurd (Or.inr (Or.inl h2)) hc
          · rcases Classical.em (c = '"') with h3 | h3
            · exact absurd (Or.inr (Or.inr h3)) hc
            · simp [h, h2, h3]
      unfold booleanScan
      rw [hcb, if_neg (by simp)]
      rw [keywordMatchFrom_cons]
      constructor
      · intro h
        split at h
        · next hcond =>
          simp only [Bool.and_eq_true, Bool.or_eq_true] at hcond
          right; left
          rcases hcond.2 with hm | hm
          · obtain ⟨w, post, heq, hw, hr⟩ := (matchANDHere_iff _).1 hm
            exact ⟨hcond.1, w, post, heq, Or.inl hw, hr⟩
          · obtain ⟨w, post, heq, hw, hr⟩ := (matchORHere_iff _).1 hm
            exact ⟨hcond.1, w, post, heq, Or.inr hw, hr⟩
        · rcases (ih (some c)).1 h with hmem | hkm
          · obtain ⟨d, hd, hdp⟩ := hmem
            exact Or.inl ⟨d, by simp [hd], hdp⟩
          · right; right; exact hkm
      · rintro (⟨d, hd, hdp⟩ | ⟨hb, w, post, heq, hw, hr⟩ | hkm)
        · rcases List.mem_cons.1 hd with rfl | hd2
          · exact absurd hdp hc
          · split
            · rfl
            · exact (ih (some c)).2 (Or.inl ⟨d, hd2, hdp⟩)
        · have hm : (matchANDHere (c :: rest) || matchORHere (c :: rest)) = true := by
            rcases hw with hw | hw
            · simp only [Bool.or_eq_true]
              exact Or.inl ((matchANDHere_iff _).2 ⟨w, post, heq, hw, hr⟩)
            · simp only [Bool.or_eq_true]
              exact Or.inr ((matchORHere_iff _).2 ⟨w, post, heq, hw, hr⟩)
          rw [if_pos (by simp [hb, hm])]
        · split
          · rfl
          · exact (ih (some c)).2 (Or.inr hkm)

/-- C7 (amended): `has_boolean_syntax` — and hence `multi_search`'s
routing — treats a raw query as boolean iff it contains the literal
word AND or OR at word boundaries (case-insensitive), a parenthesis, or
a straight double quote; negation-only and semicolon-separated queries
are not boolean.  (The claim also listed curly quotes; the code does
not recognise them — see `claim_c7_counterexample`.) -/
theorem claim_c7_boolean_syntax :
    (∀ raw, hasBooleanSyntax raw = true ↔ SpecHasBooleanSyntax raw) ∧
    hasBooleanSyntax "-serum" = false ∧
    hasBooleanSyntax "collagen;vitamin" = false ∧
    (∀ (ttl now : ℤ) (raw : String) (sourceIds negs : List String)
      (oracle : String → List (Except String (List Product)))
      (cache : List CacheEntry),
      hasBooleanSyntax raw = true →
      SearchOrchestrator.multiSearch ttl raw sourceIds negs oracle cache now =
        SearchOrchestrator.executeAdvancedSearch ttl raw sourceIds negs oracle cache now) := by
  refine ⟨?_, by decide, by decide, ?_⟩
  · intro raw
    exact booleanScan_iff raw.data none
  · intro ttl now raw sourceIds negs oracle cache h
    simp [SearchOrchestrator.multiSearch, h]

/-- Witness for C7's routing conjunct on a concrete boolean query. -/
theorem claim_c7_boolean_syntax_witness :
    SearchOrchestrator.multiSearch 10 "a AND b" ["s"] [] (fun _ => []) [] 0 =
      SearchOrchestrator.executeAdvancedSearch 10 "a AND b" ["s"] [] (fun _ => []) [] 0 :=
  claim_c7_boolean_syntax.2.2.2 10 0 "a AND b" ["s"] [] (fun _ => []) [] (by decide)

/-- C7 counterexample: a query containing only curly double quotes is
not detected as boolean by `has_boolean_syntax`, although the claim's
criterion (which includes curly quotes) says it is. -/
theorem claim_c7_counterexample :
    hasBooleanSyntax "“collagen”" = false ∧ ClaimHasBooleanSyntax "“collagen”" := by
  refine ⟨by decide, Or.inl ⟨'“', by decide, by decide⟩⟩

/-! ## Claim C9 — deduplication criterion

The claim's "iff" fails on the code: a price-based replacement leaves
the `seen_urls`/`seen_titles` dictionaries untouched, so duplicate
detection keys off the product that *first created* each kept slot,
not the current occupant.  `specStep` below is written from the
amended claim's words: each kept slot remembers its creator's keys. -/

/-- A kept slot, as the amended claim describes it: the (nonempty)
normalised URL and `source:title` key of the product that first created
the slot, plus the current occupant (which price replacements swap). -/
structure SpecSlot where
  urlKey : Option String
  titleKey : String
  occupant : Product
  deriving Repr

instance : Inhabited SpecSlot := ⟨⟨none, "", default⟩⟩

/-- Index of the first slot satisfying a predicate. -/
def slotIdx? (pred : SpecSlot → Bool) : List SpecSlot → Option Nat
  | [] => none
  | sl :: rest => if pred sl then some 0 else (slotIdx? pred rest).map (· + 1)

/-- One product processed against the kept slots, per the amended
claim: it is a duplicate iff its nonempty normalised URL matches some
slot-creator's URL key or (failing that) its `source:title` key matches
some slot-creator's title key; on a duplicate the slot's occupant is
replaced iff the new price is positive and strictly lower, and
otherwise the product is discarded; a non-duplicate opens a new slot
registering its own keys. -/
def specStep (st : List SpecSlot × Nat) (p : Product) : List SpecSlot × Nat :=
  let nu := ProductDeduplicator.normaliseUrl p.url
  let tk := ProductDeduplicator.titleKeyOf p
  match (if nu ≠ "" then slotIdx? (fun sl => decide (sl.urlKey = some nu)) st.1
         else none) with
  | some i =>
    (if 0 < p.price ∧ p.price < (st.1.getD i default).occupant.price
     then st.1.set i { st.1.getD i default with occupant := p }
     else st.1, st.2 + 1)
  | none =>
    match slotIdx? (fun sl => decide (sl.titleKey = tk)) st.1 with
    | some i =>
      (if 0 < p.price ∧ p.price < (st.1.getD i default).occupant.price
       then st.1.set i { st.1.getD i default with occupant := p }
       else st.1, st.2 + 1)
    | none =>
      (st.1 ++ [⟨if nu = "" then none else some nu, tk, p⟩], st.2)

/-- C9 counterexample: with
`q1 = (title a, url u, 10)`, `q2 = (title a, url v, 5)`,
`q3 = (title b, url v, 7)` (all source `s`), `q2` replaces `q1` by
price, and `q3` — whose nonempty normalised URL `v` equals kept `q2`'s
normalised URL — is *not* treated as a duplicate: it is kept, and the
removed count is 1, not 2. -/
theorem claim_c9_counterexample :
    ProductDeduplicator.deduplicate
        [({ title := "a", price := 10, url := "u", source := "s" } : Product),
         ({ title := "a", price := 5, url := "v", source := "s" } : Product),
         ({ title := "b", price := 7, url := "v", source := "s" } : Product)] =
      ([({ title := "a", price := 5, url := "v", source := "s" } : Product),
        ({ title := "b", price := 7, url := "v", source := "s" } : Product)], 1) ∧
    (∃ kept ∈ (ProductDeduplicator.deduplicate
        [({ title := "a", price := 10, url := "u", source := "s" } : Product),
         ({ title := "a", price := 5, url := "v", source := "s" } : Product),
         ({ title := "b", price := 7, url := "v", source := "s" } : Product)]).1,
      kept ≠ ({ title := "b", price := 7, url := "v", source := "s" } : Product) ∧
      ProductDeduplicator.normaliseUrl kept.url =
        ProductDeduplicator.normaliseUrl
          ({ title := "b", price := 7, url := "v", source := "s" } : Product).url ∧
      ProductDeduplicator.normaliseUrl
          ({ title := "b", price := 7, url := "v", source := "s" } : Product).url ≠ "" ∧
      ({ title := "b", price := 7, url := "v", source := "s" } : Product) ∈
        (ProductDeduplicator.deduplicate
        [({ title := "a", price := 10, url := "u", source := "s" } : Product),
         ({ title := "a", price := 5, url := "v", source := "s" } : Product),
         ({ title := "b", price := 7, url := "v", source := "s" } : Product)]).1) := by
  decide

theorem slotIdx?_append_single (pred : SpecSlot → Bool) (l : List SpecSlot)
    (x : SpecSlot) :
    slotIdx? pred (l ++ [x]) =
      (match slotIdx? pred l with
       | some i => some i
       | none => if pred x then some l.length else none) := by
  induction l with
  | nil => simp [slotIdx?]
  | cons sl rest ih =>
    simp only [List.cons_append, slotIdx?]
    split
    · rfl
    · simp only [List.append_eq]
      cases hr : slotIdx? pred rest with
      | some j => rw [ih, hr]; simp
      | none =>
        rw [ih, hr]
        simp [apply_ite, List.length_cons]

theorem slotIdx?_set_congr (pred : SpecSlot → Bool) (l : List SpecSlot) :
    ∀ (i : Nat) (x : SpecSlot),
      (∀ y, l.get? i = some y → pred x = pred y) →
      slotIdx? pred (l.set i x) = slotIdx? pred l := by
  induction l with
  | nil => intro i x _; simp
  | cons sl rest ih =>
    intro i x h
    cases i with
    | zero =>
      simp only [List.set_cons_zero, slotIdx?]
      rw [h sl (by simp)]
    | succ i =>
      simp only [List.set_cons_succ, slotIdx?]
      rw [ih i x (fun y hy => h y (by simpa using hy))]

theorem slotIdx?_lt (pred : SpecSlot → Bool) (l : List SpecSlot) :
    ∀ i, slotIdx? pred l = some i → i < l.length := by
  induction l with
  | nil => intro i h; simp [slotIdx?] at h
  | cons sl rest ih =>
    intro i h
    simp only [slotIdx?] at h
    split at h
    · simp at h
      simp only [List.length_cons]
      omega
    · cases hr : slotIdx? pred rest with
      | none => rw [hr] at h; simp at h
      | some j =>
        rw [hr] at h
        simp only [Option.map_some', Option.some.injEq] at h
        have hlt := ih j hr
        simp only [List.length_cons]
        omega

theorem getD_map_occupant (l : List SpecSlot) :
    ∀ i, (l.map SpecSlot.occupant).getD i default = (l.getD i default).occupant := by
  induction l with
  | nil => intro i; simp [default]
  | cons sl rest ih =>
    intro i
    cases i with
    | zero => simp
    | succ i => simpa using ih i

theorem getD_eq_of_mem (l : List SpecSlot) (i : Nat) (y : SpecSlot)
    (h : l.get? i = some y) : l.getD i default = y := by
  simp [List.getD_eq_getElem?_getD, ← List.get?_eq_getElem?, h]

/-- Replacing a slot's occupant (conditionally) never changes the result
of a key search, because `slotIdx?` predicates look only at the keys. -/
theorem slotIdx?_replaceIf (pred : SpecSlot → Bool) (slots : List SpecSlot) (i : Nat)
    (p : Product) (h : ∀ y : SpecSlot, pred ⟨y.urlKey, y.titleKey, p⟩ = pred y)
    (c : Prop) [Decidable c] :
    slotIdx? pred
        (if c then slots.set i { slots.getD i default with occupant := p } else slots) =
      slotIdx? pred slots := by
  split
  · apply slotIdx?_set_congr
    intro y hy
    rw [getD_eq_of_mem slots i y hy]
    exact h y
  · rfl

/-- The kept-products view of a conditional occupant replacement. -/
theorem kept_replaceIf (slots : List SpecSlot) (i : Nat) (p : Product) :
    (if 0 < p.price ∧ p.price < ((slots.map SpecSlot.occupant).getD i default).price
     then (slots.map SpecSlot.occupant).set i p
     else slots.map SpecSlot.occupant) =
      (if 0 < p.price ∧ p.price < (slots.getD i default).occupant.price
       then slots.set i { slots.getD i default with occupant := p }
       else slots).map SpecSlot.occupant := by
  rw [getD_map_occupant]
  by_cases hc : 0 < p.price ∧ p.price < (slots.getD i default).occupant.price
  · rw [if_pos hc, if_pos hc, List.map_set]
  · rw [if_neg hc, if_neg hc]

theorem slotIdx?_append_miss (pred : SpecSlot → Bool) (slots : List SpecSlot)
    (x : SpecSlot) (hx : pred x = false) :
    slotIdx? pred (slots ++ [x]) = slotIdx? pred slots := by
  rw [slotIdx?_append_single]
  cases h : slotIdx? pred slots with
  | some i => rfl
  | none => simp [hx]

theorem slotIdx?_append_hit (pred : SpecSlot → Bool) (slots : List SpecSlot)
    (x : SpecSlot) (hnone : slotIdx? pred slots = none) (hx : pred x = true) :
    slotIdx? pred (slots ++ [x]) = some slots.length := by
  rw [slotIdx?_append_single, hnone]
  simp [hx]

theorem lookup_cons_self (k : String) (v : Nat) (l : List (String × Nat)) :
    List.lookup k ((k, v) :: l) = some v := by
  simp [List.lookup]

theorem lookup_cons_ne (a k : String) (v : Nat) (l : List (String × Nat))
    (h : a ≠ k) : List.lookup a ((k, v) :: l) = List.lookup a l := by
  simp [List.lookup, beq_eq_false_iff_ne.mpr h]

/-- The simulation invariant between the code's fold state and the
amended claim's slot list: the kept products are the slot occupants,
and each dictionary answers exactly the slot-creator key searches. -/
def SlotsInv (st : ProductDeduplicator.DedupState) (slots : List SpecSlot) : Prop :=
  st.kept = slots.map SpecSlot.occupant ∧
  (∀ u : String, st.seenUrls.lookup u =
      slotIdx? (fun sl => decide (sl.urlKey = some u)) slots) ∧
  (∀ k : String, st.seenTitles.lookup k =
      slotIdx? (fun sl => decide (sl.titleKey = k)) slots)

/-- One `dedupStep` is simulated by one `specStep` of the amended
claim, preserving the invariant and agreeing on the removed count. -/
theorem dedup_spec_step (st : ProductDeduplicator.DedupState) (slots : List SpecSlot)
    (p : Product) (hinv : SlotsInv st slots) :
    SlotsInv (ProductDeduplicator.dedupStep st p) (specStep (slots, st.removed) p).1 ∧
      (ProductDeduplicator.dedupStep st p).removed = (specStep (slots, st.removed) p).2 := by
  obtain ⟨hkept, hurl, htit⟩ := hinv
  have hlen : slots.length = st.kept.length := by rw [hkept, List.length_map]
  by_cases hnu : ProductDeduplicator.normaliseUrl p.url = ""
  · have h1 : (if ProductDeduplicator.normaliseUrl p.url ≠ "" then
        st.seenUrls.lookup (ProductDeduplicator.normaliseUrl p.url) else none) = none := by
      rw [if_neg (by simp [hnu])]
    have h1' : (if ProductDeduplicator.normaliseUrl p.url ≠ "" then
        slotIdx? (fun sl => decide (sl.urlKey =
          some (ProductDeduplicator.normaliseUrl p.url))) slots else none) = none := by
      rw [if_neg (by simp [hnu])]
    cases hlt : st.seenTitles.lookup (ProductDeduplicator.titleKeyOf p) with
    | some i =>
      have hlt' : slotIdx? (fun sl =>
          decide (sl.titleKey = ProductDeduplicator.titleKeyOf p)) slots = some i :=
        (htit _).symm.trans hlt
      have hstepL : ProductDeduplicator.dedupStep st p = { st with
          kept := if 0 < p.price ∧ p.price < (st.kept.getD i default).price
            then st.kept.set i p else st.kept,
          removed := st.removed + 1 } := by
        simp only [ProductDeduplicator.dedupStep, h1, hlt]
      have hstepR : specStep (slots, st.removed) p =
          (if 0 < p.price ∧ p.price < (slots.getD i default).occupant.price
           then slots.set i { slots.getD i default with occupant := p } else slots,
           st.removed + 1) := by
        simp only [specStep, h1', hlt']
      refine ⟨⟨?_, ?_, ?_⟩, ?_⟩
      · rw [hstepL, hstepR]
        simp only []
        rw [hkept]
        exact kept_replaceIf slots i p
      · intro u
        rw [hstepL, hstepR]
        simp only []
        rw [hurl u]
        exact (slotIdx?_replaceIf (fun sl => decide (sl.urlKey = some u)) slots i p
          (fun y => rfl) _).symm
      · intro k
        rw [hstepL, hstepR]
        simp only []
        rw [htit k]
        exact (slotIdx?_replaceIf (fun sl => decide (sl.titleKey = k)) slots i p
          (fun y => rfl) _).symm
      · rw [hstepL, hstepR]
    | none =>
      have hlt' : slotIdx? (fun sl =>
          decide (sl.titleKey = ProductDeduplicator.titleKeyOf p)) slots = none :=
        (htit _).symm.trans hlt
      have hstepL : ProductDeduplicator.dedupStep st p =
          { seenUrls := st.seenUrls,
            seenTitles := (ProductDeduplicator.titleKeyOf p, st.kept.length) :: st.seenTitles,
            kept := st.kept ++ [p],
            removed := st.removed } := by
        simp only [ProductDeduplicator.dedupStep, h1, hlt]
        rw [if_neg (by simp [hnu])]
      have hstepR : specStep (slots, st.removed) p =
          (slots ++ [⟨none, ProductDeduplicator.titleKeyOf p, p⟩], st.removed) := by
        simp only [specStep, h1', hlt']
        rw [if_pos hnu]
      refine ⟨⟨?_, ?_, ?_⟩, ?_⟩
      · rw [hstepL, hstepR]
        simp only []
        rw [hkept]
        simp [List.map_append]
      · intro u
        rw [hstepL, hstepR]
        simp only []
        rw [hurl u]
        exact (slotIdx?_append_miss _ slots _ (by simp)).symm
      · intro k
        rw [hstepL, hstepR]
        simp only []
        by_cases hk : k = ProductDeduplicator.titleKeyOf p
        · subst hk
          rw [lookup_cons_self, slotIdx?_append_hit _ _ _ hlt' (by simp), hlen]
        · rw [lookup_cons_ne _ _ _ _ hk, htit k,
            slotIdx?_append_miss _ _ _
              (decide_eq_false_iff_not.mpr (fun hc => hk (hc.symm)))]
      · rw [hstepL, hstepR]
  · have h1 : (if ProductDeduplicator.normaliseUrl p.url ≠ "" then
        st.seenUrls.lookup (ProductDeduplicator.normaliseUrl p.url) else none) =
        st.seenUrls.lookup (ProductDeduplicator.normaliseUrl p.url) := if_pos hnu
    have h1' : (if ProductDeduplicator.normaliseUrl p.url ≠ "" then
        slotIdx? (fun sl => decide (sl.urlKey =
          some (ProductDeduplicator.normaliseUrl p.url))) slots else none) =
        slotIdx? (fun sl => decide (sl.urlKey =
          some (ProductDeduplicator.normaliseUrl p.url))) slots := if_pos hnu
    cases hlu : st.seenUrls.lookup (ProductDeduplicator.normaliseUrl p.url) with
    | some i =>
      have hlu' : slotIdx? (fun sl => decide (sl.urlKey =
          some (ProductDeduplicator.normaliseUrl p.url))) slots = some i :=
        (hurl _).symm.trans hlu
      have hstepL : ProductDeduplicator.dedupStep st p = { st with
          kept := if 0 < p.price ∧ p.price < (st.kept.getD i default).price
            then st.kept.set i p else st.kept,
          removed := st.removed + 1 } := by
        simp only [ProductDeduplicator.dedupStep, h1.trans hlu]
      have hstepR : specStep (slots, st.removed) p =
          (if 0 < p.price ∧ p.price < (slots.getD i default).occupant.price
           then slots.set i { slots.getD i default with occupant := p } else slots,
           st.removed + 1) := by
        simp only [specStep, h1'.trans hlu']
      refine ⟨⟨?_, ?_, ?_⟩, ?_⟩
      · rw [hstepL, hstepR]
        simp only []
        rw [hkept]
        exact kept_replaceIf slots i p
      · intro u
        rw [hstepL, hstepR]
        simp only []
        rw [hurl u]
        exact (slotIdx?_replaceIf (fun sl => decide (sl.urlKey = some u)) slots i p
          (fun y => rfl) _).symm
      · intro k
        rw [hstepL, hstepR]
        simp only []
        rw [htit k]
        exact (slotIdx?_replaceIf (fun sl => decide (sl.titleKey = k)) slots i p
          (fun y => rfl) _).symm
      · rw [hstepL, hstepR]
    | none =>
      have hlu' : slotIdx? (fun sl => decide (sl.urlKey =
          some (ProductDeduplicator.normaliseUrl p.url))) slots = none :=
        (hurl _).symm.trans hlu
      cases hlt : st.seenTitles.lookup (ProductDeduplicator.titleKeyOf p) with
      | some i =>
        have hlt' : slotIdx? (fun sl =>
            decide (sl.titleKey = ProductDeduplicator.titleKeyOf p)) slots = some i :=
          (htit _).symm.trans hlt
        have hstepL : ProductDeduplicator.dedupStep st p = { st with
            kept := if 0 < p.price ∧ p.price < (st.kept.getD i default).price
              then st.kept.set i p else st.kept,
            removed := st.removed + 1 } := by
          simp only [ProductDeduplicator.dedupStep, h1.trans hlu, hlt]
        have hstepR : specStep (slots, st.removed) p =
            (if 0 < p.price ∧ p.price < (slots.getD i default).occupant.price
             then slots.set i { slots.getD i default with occupant := p } else slots,
             st.removed + 1) := by
          simp only [specStep, h1'.trans hlu', hlt']
        refine ⟨⟨?_, ?_, ?_⟩, ?_⟩
        · rw [hstepL, hstepR]
          simp only []
          rw [hkept]
          exact kept_replaceIf slots i p
        · intro u
          rw [hstepL, hstepR]
          simp only []
          rw [hurl u]
          exact (slotIdx?_replaceIf (fun sl => decide (sl.urlKey = some u)) slots i p
            (fun y => rfl) _).symm
        · intro k
          rw [hstepL, hstepR]
          simp only []
          rw [htit k]
          exact (slotIdx?_replaceIf (fun sl => decide (sl.titleKey = k)) slots i p
            (fun y => rfl) _).symm
        · rw [hstepL, hstepR]
      | none =>
        have hlt' : slotIdx? (fun sl =>
            decide (sl.titleKey = ProductDeduplicator.titleKeyOf p)) slots = none :=
          (htit _).symm.trans hlt
        have hstepL : ProductDeduplicator.dedupStep st p =
            { seenUrls := (ProductDeduplicator.normaliseUrl p.url, st.kept.length) ::
                st.seenUrls,
              seenTitles := (ProductDeduplicator.titleKeyOf p, st.kept.length) ::
                st.seenTitles,
              kept := st.kept ++ [p],
              removed := st.removed } := by
          simp only [ProductDeduplicator.dedupStep, h1.trans hlu, hlt]
          rw [if_pos hnu]
        have hstepR : specStep (slots, st.removed) p =
            (slots ++ [⟨some (ProductDeduplicator.normaliseUrl p.url),
              ProductDeduplicator.titleKeyOf p, p⟩], st.removed) := by
          simp only [specStep, h1'.trans hlu', hlt']
          rw [if_neg hnu]
        refine ⟨⟨?_, ?_, ?_⟩, ?_⟩
        · rw [hstepL, hstepR]
          simp only []
          rw [hkept]
          simp [List.map_append]
        · intro u
          rw [hstepL, hstepR]
          simp only []
          by_cases hu : u = ProductDeduplicator.normaliseUrl p.url
          · subst hu
            rw [lookup_cons_self, slotIdx?_append_hit _ _ _ hlu' (by simp), hlen]
          · rw [lookup_cons_ne _ _ _ _ hu, hurl u,
              slotIdx?_append_miss _ _ _
                (decide_eq_false_iff_not.mpr
                  (fun hc => hu ((Option.some.inj hc).symm)))]
        · intro k
          rw [hstepL, hstepR]
          simp only []
          by_cases hk : k = ProductDeduplicator.titleKeyOf p
          · subst hk
            rw [lookup_cons_self, slotIdx?_append_hit _ _ _ hlt' (by simp), hlen]
          · rw [lookup_cons_ne _ _ _ _ hk, htit k,
              slotIdx?_append_miss _ _ _
                (decide_eq_false_iff_not.mpr (fun hc => hk (hc.symm)))]
        · rw [hstepL, hstepR]

/-- The simulation, folded over the whole product list. -/
theorem dedup_spec_foldl (l : List Product) :
    ∀ (st : ProductDeduplicator.DedupState) (slots : List SpecSlot),
      SlotsInv st slots →
      SlotsInv (l.foldl ProductDeduplicator.dedupStep st)
          (l.foldl specStep (slots, st.removed)).1 ∧
        (l.foldl ProductDeduplicator.dedupStep st).removed =
          (l.foldl specStep (slots, st.removed)).2 := by
  induction l with
  | nil => intro st slots h; exact ⟨h, rfl⟩
  | cons p ps ih =>
    intro st slots h
    simp only [List.foldl_cons]
    have hstep := dedup_spec_step st slots p h
    have hrec := ih (ProductDeduplicator.dedupStep st p)
      (specStep (slots, st.removed) p).1 hstep.1
    rw [show specStep (slots, st.removed) p =
        ((specStep (slots, st.removed) p).1,
          (ProductDeduplicator.dedupStep st p).removed) from by rw [hstep.2]]
    exact hrec

/-- `deduplicate` computes exactly the amended claim's slot fold: the
kept list is the slot occupants and the removed count agrees. -/
theorem deduplicate_spec (products : List Product) :
    ProductDeduplicator.deduplicate products =
      (((products.foldl specStep ([], 0)).1).map SpecSlot.occupant,
        (products.foldl specStep ([], 0)).2) := by
  have hinv : SlotsInv ⟨[], [], [], 0⟩ [] := ⟨rfl, fun u => rfl, fun k => rfl⟩
  have h := dedup_spec_foldl products ⟨[], [], [], 0⟩ [] hinv
  unfold ProductDeduplicator.deduplicate
  split
  · next he => simp [List.isEmpty_iff.1 he]
  · obtain ⟨⟨hk, _, _⟩, hr⟩ := h
    simp only []
    rw [hk, hr]

/-- Every character of `joinWords ws` is a space or comes from a word. -/
theorem mem_joinWords (c : Char) :
    ∀ ws : List (List Char), c ∈ ProductDeduplicator.joinWords ws →
      c = ' ' ∨ ∃ w ∈ ws, c ∈ w
  | [] => by simp [ProductDeduplicator.joinWords]
  | [w] => by
    intro h
    exact Or.inr ⟨w, by simp, by simpa [ProductDeduplicator.joinWords] using h⟩
  | w :: w2 :: rest => by
    intro h
    rw [show ProductDeduplicator.joinWords (w :: w2 :: rest) =
        w ++ ' ' :: ProductDeduplicator.joinWords (w2 :: rest) from rfl] at h
    rcases List.mem_append.mp h with hw | hr
    · exact Or.inr ⟨w, by simp, hw⟩
    · rcases List.mem_cons.mp hr with hsp | htail
      · exact Or.inl hsp
      · rcases mem_joinWords c (w2 :: rest) htail with hsp | ⟨w3, hw3, hc3⟩
        · exact Or.inl hsp
        · exact Or.inr ⟨w3, List.mem_cons_of_mem _ hw3, hc3⟩

/-- Every character of a `splitWsAux` word comes from the input or the
accumulator. -/
theorem splitWsAux_chars :
    ∀ (l acc w : List Char), w ∈ ProductDeduplicator.splitWsAux l acc →
      ∀ c ∈ w, c ∈ l ∨ c ∈ acc := by
  intro l
  induction l with
  | nil =>
    intro acc w hw c hc
    simp only [ProductDeduplicator.splitWsAux] at hw
    split at hw
    · simp at hw
    · simp only [List.mem_singleton] at hw
      subst hw
      exact Or.inr (List.mem_reverse.mp hc)
  | cons a rest ih =>
    intro acc w hw c hc
    simp only [ProductDeduplicator.splitWsAux] at hw
    split at hw
    · split at hw
      · rcases ih [] w hw c hc with hin | hin
        · exact Or.inl (List.mem_cons_of_mem _ hin)
        · simp at hin
      · rcases List.mem_cons.mp hw with hacc | htail
        · subst hacc
          exact Or.inr (List.mem_reverse.mp hc)
        · rcases ih [] w htail c hc with hin | hin
          · exact Or.inl (List.mem_cons_of_mem _ hin)
          · simp at hin
    · rcases ih (a :: acc) w hw c hc with hin | hin
      · exact Or.inl (List.mem_cons_of_mem _ hin)
      · rcases List.mem_cons.mp hin with hca | hca
        · exact Or.inl (hca ▸ List.mem_cons_self _ _)
        · exact Or.inr hca

/-- `_normalise_title` output never contains a colon: every character
survives the `[a-z0-9\s]` filter or is an inserted space. -/
theorem normaliseTitle_no_colon (t : String) :
    ':' ∉ (ProductDeduplicator.normaliseTitle t).data := by
  intro hmem
  unfold ProductDeduplicator.normaliseTitle at hmem
  simp only [] at hmem
  rcases mem_joinWords ':' _ hmem with hsp | ⟨w, hw, hc⟩
  · exact absurd hsp (by decide)
  · rcases splitWsAux_chars _ [] w hw ':' hc with hin | hin
    · have h2 := (List.mem_filter.mp hin).2
      exact absurd h2 (by decide)
    · simp at hin

/-- Splitting at a colon is unambiguous when both prefixes are
colon-free. -/
theorem append_colon_inj :
    ∀ (t1 : List Char), ':' ∉ t1 → ∀ (t2 : List Char), ':' ∉ t2 →
      ∀ (s1 s2 : List Char), t1 ++ ':' :: s1 = t2 ++ ':' :: s2 →
        t1 = t2 ∧ s1 = s2 := by
  intro t1
  induction t1 with
  | nil =>
    intro _ t2 h2 s1 s2 heq
    cases t2 with
    | nil => simpa using heq
    | cons b bs =>
      simp only [List.nil_append, List.cons_append, List.cons.injEq] at heq
      exact absurd (heq.1 ▸ List.mem_cons_self b bs) h2
  | cons a as ih =>
    intro h1 t2 h2 s1 s2 heq
    cases t2 with
    | nil =>
      simp only [List.nil_append, List.cons_append, List.cons.injEq] at heq
      exact absurd (heq.1.symm ▸ List.mem_cons_self a as) h1
    | cons b bs =>
      simp only [List.cons_append, List.cons.injEq] at heq
      obtain ⟨hab, heq2⟩ := heq
      have hrest := ih (fun hcm => h1 (List.mem_cons_of_mem _ hcm)) bs
        (fun hcm => h2 (List.mem_cons_of_mem _ hcm)) s1 s2 heq2
      exact ⟨by rw [hab, hrest.1], hrest.2⟩

/-- The `source:normalised-title` key determines source and normalised
title: titles from different sources never share a key. -/
theorem titleKeyOf_eq_iff (p q : Product) :
    ProductDeduplicator.titleKeyOf p = ProductDeduplicator.titleKeyOf q ↔
      (p.source = q.source ∧
        ProductDeduplicator.normaliseTitle p.title =
          ProductDeduplicator.normaliseTitle q.title) := by
  constructor
  · intro h
    unfold ProductDeduplicator.titleKeyOf at h
    have hd : p.source.data ++ ':' :: (ProductDeduplicator.normaliseTitle p.title).data =
        q.source.data ++ ':' :: (ProductDeduplicator.normaliseTitle q.title).data := by
      have hdata := congrArg String.data h
      simpa [String.data_append] using hdata
    have hrev := congrArg List.reverse hd
    simp only [List.reverse_append, List.reverse_cons, List.append_assoc,
      List.singleton_append] at hrev
    have hsplit := append_colon_inj _
      (fun hcm => normaliseTitle_no_colon p.title (List.mem_reverse.mp hcm)) _
      (fun hcm => normaliseTitle_no_colon q.title (List.mem_reverse.mp hcm)) _ _ hrev
    constructor
    · apply String.ext
      exact List.reverse_injective hsplit.2
    · apply String.ext
      exact List.reverse_injective hsplit.1
  · intro hpq
    unfold ProductDeduplicator.titleKeyOf
    rw [hpq.1, hpq.2]

/-- C9 (amended): `deduplicate` treats a product as a duplicate iff its
nonempty normalised URL, or failing that its `source:normalised-title`
key, matches the key registered by the product that *created* a kept
slot (not necessarily the slot's current occupant, which a price
replacement may have swapped: see `claim_c9_counterexample`); on a
duplicate the kept entry is replaced exactly when the new price is
positive and strictly lower, otherwise the product is discarded; and
the `source:normalised-title` key matches iff source and normalised
title both match, so equal titles from different sources are never
merged.  Formally: `deduplicate` equals the slot fold `specStep`
written from that description, and the title key is injective in
(source, normalised title). -/
theorem claim_c9_dedup_criterion (products : List Product) :
    ProductDeduplicator.deduplicate products =
      (((products.foldl specStep ([], 0)).1).map SpecSlot.occupant,
        (products.foldl specStep ([], 0)).2) ∧
    (∀ p q : Product,
      ProductDeduplicator.titleKeyOf p = ProductDeduplicator.titleKeyOf q ↔
        (p.source = q.source ∧
          ProductDeduplicator.normaliseTitle p.title =
            ProductDeduplicator.normaliseTitle q.title)) :=
  ⟨deduplicate_spec products, titleKeyOf_eq_iff⟩

/-! ## Claim C5 — parse failures and grammar completeness

`Deriv` is the boolean-query grammar exactly as the parser's doc
strings state it: `expr → and_expr (OR and_expr)*`,
`and_expr → unary (AND? unary)*`, `unary → PHRASE | WORD | LPAREN expr
RPAREN`; `andTail`/`orTail` are the starred repetition parts. -/

/-- Grammar symbols of the recursive-descent parser. -/
inductive Sym where
  | unary
  | andTail
  | andE
  | orTail
  | expr
  deriving DecidableEq, Repr

/-- Derivations of the boolean-query grammar. -/
inductive Deriv : Sym → List Token → Prop where
  | phrase (v : String) : Deriv Sym.unary [⟨TokenType.PHRASE, v⟩]
  | word (v : String) : Deriv Sym.unary [⟨TokenType.WORD, v⟩]
  | paren (a b : String) (ts : List Token) : Deriv Sym.expr ts →
      Deriv Sym.unary (⟨TokenType.LPAREN, a⟩ :: ts ++ [⟨TokenType.RPAREN, b⟩])
  | andNil : Deriv Sym.andTail []
  | andExplicit (v : String) (ts1 ts2 : List Token) :
      Deriv Sym.unary ts1 → Deriv Sym.andTail ts2 →
      Deriv Sym.andTail (⟨TokenType.AND, v⟩ :: ts1 ++ ts2)
  | andImplicit (ts1 ts2 : List Token) :
      Deriv Sym.unary ts1 → Deriv Sym.andTail ts2 →
      Deriv Sym.andTail (ts1 ++ ts2)
  | andMk (ts1 ts2 : List Token) :
      Deriv Sym.unary ts1 → Deriv Sym.andTail ts2 →
      Deriv Sym.andE (ts1 ++ ts2)
  | orNil : Deriv Sym.orTail []
  | orCons (v : String) (ts1 ts2 : List Token) :
      Deriv Sym.andE ts1 → Deriv Sym.orTail ts2 →
      Deriv Sym.orTail (⟨TokenType.OR, v⟩ :: ts1 ++ ts2)
  | exprMk (ts1 ts2 : List Token) :
      Deriv Sym.andE ts1 → Deriv Sym.orTail ts2 →
      Deriv Sym.expr (ts1 ++ ts2)

/-- The `_parse_and_expr` loop stops in front of these suffixes. -/
def StopsAnd : List Token → Prop
  | [] => True
  | t :: _ => t.type ≠ TokenType.AND ∧ isUnaryStart t.type = false

/-- The `parse_expr` loop stops in front of these suffixes (which also
must stop the inner and-loop). -/
def StopsOr : List Token → Prop
  | [] => True
  | t :: _ => t.type ≠ TokenType.AND ∧ isUnaryStart t.type = false ∧
      t.type ≠ TokenType.OR

theorem deriv_unary_shape {ts : List Token} (h : Deriv Sym.unary ts) :
    ∃ t ts', ts = t :: ts' ∧ isUnaryStart t.type = true ∧
      t.type ≠ TokenType.AND ∧ t.type ≠ TokenType.OR := by
  cases h with
  | phrase v =>
    exact ⟨_, _, rfl, rfl, fun hc => TokenType.noConfusion hc,
      fun hc => TokenType.noConfusion hc⟩
  | word v =>
    exact ⟨_, _, rfl, rfl, fun hc => TokenType.noConfusion hc,
      fun hc => TokenType.noConfusion hc⟩
  | paren a b ts hts =>
    exact ⟨_, _, rfl, rfl, fun hc => TokenType.noConfusion hc,
      fun hc => TokenType.noConfusion hc⟩

theorem deriv_andE_length {ts : List Token} (h : Deriv Sym.andE ts) :
    1 ≤ ts.length := by
  cases h with
  | andMk ts1 ts2 h1 h2 =>
    obtain ⟨t, ts', heq, -, -, -⟩ := deriv_unary_shape h1
    subst heq
    simp

theorem stopsOr_stopsAnd : ∀ {ts : List Token}, StopsOr ts → StopsAnd ts
  | [], _ => trivial
  | _ :: _, h => ⟨h.1, h.2.1⟩

/-- An or-tail either is empty or starts with `OR`; in both cases the
and-loop stops at its head. -/
theorem orTail_stopsAnd {ts rest : List Token} (h : Deriv Sym.orTail ts)
    (hrest : StopsOr rest) : StopsAnd (ts ++ rest) := by
  cases h with
  | orNil => exact stopsOr_stopsAnd hrest
  | orCons v ts1 ts2 h1 h2 => exact ⟨fun hc => TokenType.noConfusion hc, rfl⟩

theorem parseUnaryF_not_start (f : Nat) (t : Token) (ts : List Token)
    (h : isUnaryStart t.type = false) :
    parseUnaryF (f + 1) (t :: ts) =
      Except.error ("Unexpected token: '" ++ t.value ++ "'") := by
  cases t with
  | mk ty v => cases ty <;> simp_all [parseUnaryF, isUnaryStart]

theorem parseAndTailF_stop (f : Nat) (acc : List ASTNode) (rest : List Token)
    (h : StopsAnd rest) :
    parseAndTailF (f + 1) acc rest = Except.ok (collapseAnd acc, rest) := by
  cases rest with
  | nil => rfl
  | cons t ts =>
    obtain ⟨h1, h2⟩ := h
    simp [parseAndTailF, h1, h2]

theorem parseOrTailF_stop (f : Nat) (acc : List ASTNode) (rest : List Token)
    (h : StopsOr rest) :
    parseOrTailF (f + 1) acc rest = Except.ok (collapseOr acc, rest) := by
  cases rest with
  | nil => rfl
  | cons t ts =>
    have h3 : t.type ≠ TokenType.OR := h.2.2
    cases t with
    | mk ty v => cases ty <;> first | rfl | exact absurd rfl h3

/-- The fuel each parser function needs to consume a derivation in
front of a stopping suffix. -/
def CompleteFor : Sym → List Token → Prop
  | Sym.unary, ts => ∀ (f : Nat) (rest : List Token), 3 * ts.length ≤ f + 2 →
      ∃ n, parseUnaryF f (ts ++ rest) = Except.ok (n, rest)
  | Sym.andTail, ts => ∀ (f : Nat) (rest : List Token) (acc : List ASTNode),
      3 * ts.length + 1 ≤ f → StopsAnd rest →
      ∃ n, parseAndTailF f acc (ts ++ rest) = Except.ok (n, rest)
  | Sym.andE, ts => ∀ (f : Nat) (rest : List Token),
      3 * ts.length + 1 ≤ f → StopsAnd rest →
      ∃ n, parseAndExprF f (ts ++ rest) = Except.ok (n, rest)
  | Sym.orTail, ts => ∀ (f : Nat) (rest : List Token) (acc : List ASTNode),
      3 * ts.length + 1 ≤ f → StopsOr rest →
      ∃ n, parseOrTailF f acc (ts ++ rest) = Except.ok (n, rest)
  | Sym.expr, ts => ∀ (f : Nat) (rest : List Token),
      3 * ts.length + 2 ≤ f → StopsOr rest →
      ∃ n, parseExprF f (ts ++ rest) = Except.ok (n, rest)

/-- Completeness: every grammar derivation is consumed successfully,
with linear fuel. -/
theorem deriv_complete {sym : Sym} {ts : List Token} (h : Deriv sym ts) :
    CompleteFor sym ts := by
  induction h with
  | phrase v =>
    intro f rest hf
    obtain ⟨f', rfl⟩ : ∃ f', f = f' + 1 := ⟨f - 1, by simp at hf; omega⟩
    exact ⟨ASTNode.phrase v, rfl⟩
  | word v =>
    intro f rest hf
    obtain ⟨f', rfl⟩ : ∃ f', f = f' + 1 := ⟨f - 1, by simp at hf; omega⟩
    exact ⟨ASTNode.term v, rfl⟩
  | paren a b ts hts ih =>
    intro f rest hf
    simp only [List.length_cons, List.length_append, List.length_singleton] at hf
    obtain ⟨f', rfl⟩ : ∃ f', f = f' + 1 := ⟨f - 1, by omega⟩
    have hstops : StopsOr (⟨TokenType.RPAREN, b⟩ :: rest) :=
      ⟨fun hc => TokenType.noConfusion hc, rfl, fun hc => TokenType.noConfusion hc⟩
    obtain ⟨n, hn⟩ := ih f' (⟨TokenType.RPAREN, b⟩ :: rest) (by omega) hstops
    refine ⟨n, ?_⟩
    have hlist : (⟨TokenType.LPAREN, a⟩ :: ts ++ [⟨TokenType.RPAREN, b⟩]) ++ rest =
        ⟨TokenType.LPAREN, a⟩ :: (ts ++ ⟨TokenType.RPAREN, b⟩ :: rest) := by simp
    rw [hlist]
    simp only [parseUnaryF]
    rw [hn]
  | andNil =>
    intro f rest acc hf hstop
    obtain ⟨f', rfl⟩ : ∃ f', f = f' + 1 := ⟨f - 1, by omega⟩
    exact ⟨collapseAnd acc, by rw [List.nil_append]; exact parseAndTailF_stop f' acc rest hstop⟩
  | andExplicit v ts1 ts2 h1 h2 ih1 ih2 =>
    intro f rest acc hf hstop
    simp only [List.length_cons, List.length_append] at hf
    obtain ⟨f', rfl⟩ : ∃ f', f = f' + 1 := ⟨f - 1, by omega⟩
    obtain ⟨n1, hn1⟩ := ih1 f' (ts2 ++ rest) (by omega)
    obtain ⟨n2, hn2⟩ := ih2 f' rest (acc ++ [n1]) (by omega) hstop
    refine ⟨n2, ?_⟩
    have hlist : (⟨TokenType.AND, v⟩ :: ts1 ++ ts2) ++ rest =
        ⟨TokenType.AND, v⟩ :: (ts1 ++ (ts2 ++ rest)) := by simp
    rw [hlist]
    simp only [parseAndTailF]
    rw [if_pos trivial, hn1]
    exact hn2
  | andImplicit ts1 ts2 h1 h2 ih1 ih2 =>
    intro f rest acc hf hstop
    obtain ⟨t, ts1', heq, hstart, hneA, -⟩ := deriv_unary_shape h1
    subst heq
    simp only [List.length_cons, List.length_append] at hf
    obtain ⟨f', rfl⟩ : ∃ f', f = f' + 1 := ⟨f - 1, by omega⟩
    obtain ⟨n1, hn1⟩ := ih1 f' (ts2 ++ rest) (by simp; omega)
    obtain ⟨n2, hn2⟩ := ih2 f' rest (acc ++ [n1]) (by omega) hstop
    refine ⟨n2, ?_⟩
    have hlist : ((t :: ts1') ++ ts2) ++ rest = t :: (ts1' ++ (ts2 ++ rest)) := by simp
    rw [hlist]
    simp only [parseAndTailF]
    rw [if_neg hneA, if_pos hstart]
    simp only [List.cons_append] at hn1
    rw [hn1]
    exact hn2
  | andMk ts1 ts2 h1 h2 ih1 ih2 =>
    intro f rest hf hstop
    obtain ⟨t, ts1', heq, -, -, -⟩ := deriv_unary_shape h1
    simp only [List.length_append] at hf
    have hlen1 : 1 ≤ ts1.length := by subst heq; simp
    obtain ⟨f', rfl⟩ : ∃ f', f = f' + 1 := ⟨f - 1, by omega⟩
    obtain ⟨n1, hn1⟩ := ih1 f' (ts2 ++ rest) (by omega)
    obtain ⟨n2, hn2⟩ := ih2 f' rest [n1] (by omega) hstop
    refine ⟨n2, ?_⟩
    simp only [parseAndExprF]
    rw [List.append_assoc, hn1]
    exact hn2
  | orNil =>
    intro f rest acc hf hstop
    obtain ⟨f', rfl⟩ : ∃ f', f = f' + 1 := ⟨f - 1, by omega⟩
    exact ⟨collapseOr acc, by rw [List.nil_append]; exact parseOrTailF_stop f' acc rest hstop⟩
  | orCons v ts1 ts2 h1 h2 ih1 ih2 =>
    intro f rest acc hf hstop
    simp only [List.length_cons, List.length_append] at hf
    obtain ⟨f', rfl⟩ : ∃ f', f = f' + 1 := ⟨f - 1, by omega⟩
    have hstA : StopsAnd (ts2 ++ rest) := orTail_stopsAnd h2 hstop
    obtain ⟨n1, hn1⟩ := ih1 f' (ts2 ++ rest) (by omega) hstA
    obtain ⟨n2, hn2⟩ := ih2 f' rest (acc ++ [n1]) (by omega) hstop
    refine ⟨n2, ?_⟩
    have hlist : (⟨TokenType.OR, v⟩ :: ts1 ++ ts2) ++ rest =
        ⟨TokenType.OR, v⟩ :: (ts1 ++ (ts2 ++ rest)) := by simp
    rw [hlist]
    simp only [parseOrTailF]
    rw [hn1]
    exact hn2
  | exprMk ts1 ts2 h1 h2 ih1 ih2 =>
    intro f rest hf hstop
    simp only [List.length_append] at hf
    have hlen1 : 1 ≤ ts1.length := deriv_andE_length h1
    obtain ⟨f', rfl⟩ : ∃ f', f = f' + 1 := ⟨f - 1, by omega⟩
    have hstA : StopsAnd (ts2 ++ rest) := orTail_stopsAnd h2 hstop
    obtain ⟨n1, hn1⟩ := ih1 f' (ts2 ++ rest) (by omega) hstA
    obtain ⟨n2, hn2⟩ := ih2 f' rest [n1] (by omega) hstop
    refine ⟨n2, ?_⟩
    simp only [parseExprF]
    rw [List.append_assoc, hn1]
    exact hn2

/-- Soundness: whenever a parser function succeeds, the consumed prefix
is a grammar derivation for its symbol. -/
theorem parse_sound (f : Nat) :
    (∀ ts n rest, parseUnaryF f ts = Except.ok (n, rest) →
      ∃ pre, ts = pre ++ rest ∧ Deriv Sym.unary pre) ∧
    (∀ acc ts n rest, parseAndTailF f acc ts = Except.ok (n, rest) →
      ∃ pre, ts = pre ++ rest ∧ Deriv Sym.andTail pre) ∧
    (∀ ts n rest, parseAndExprF f ts = Except.ok (n, rest) →
      ∃ pre, ts = pre ++ rest ∧ Deriv Sym.andE pre) ∧
    (∀ acc ts n rest, parseOrTailF f acc ts = Except.ok (n, rest) →
      ∃ pre, ts = pre ++ rest ∧ Deriv Sym.orTail pre) ∧
    (∀ ts n rest, parseExprF f ts = Except.ok (n, rest) →
      ∃ pre, ts = pre ++ rest ∧ Deriv Sym.expr pre) := by
  induction f with
  | zero =>
    refine ⟨?_, ?_, ?_, ?_, ?_⟩
    · intro ts n rest h; simp [parseUnaryF] at h
    · intro acc ts n rest h; simp [parseAndTailF] at h
    · intro ts n rest h; simp [parseAndExprF] at h
    · intro acc ts n rest h; simp [parseOrTailF] at h
    · intro ts n rest h; simp [parseExprF] at h
  | succ f ih =>
    obtain ⟨ihU, ihT, ihA, ihO, ihE⟩ := ih
    refine ⟨?_, ?_, ?_, ?_, ?_⟩
    · intro ts n rest h
      cases ts with
      | nil => simp [parseUnaryF] at h
      | cons t ts1 =>
        cases t with
        | mk ty v =>
          cases ty with
          | PHRASE =>
            simp only [parseUnaryF, Except.ok.injEq, Prod.mk.injEq] at h
            exact ⟨[⟨TokenType.PHRASE, v⟩], by rw [h.2]; rfl, Deriv.phrase v⟩
          | WORD =>
            simp only [parseUnaryF, Except.ok.injEq, Prod.mk.injEq] at h
            exact ⟨[⟨TokenType.WORD, v⟩], by rw [h.2]; rfl, Deriv.word v⟩
          | LPAREN =>
            simp only [parseUnaryF] at h
            cases he : parseExprF f ts1 with
            | error e => rw [he] at h; simp at h
            | ok res =>
              obtain ⟨m, ts2⟩ := res
              rw [he] at h
              cases ts2 with
              | nil => simp at h
              | cons t2 ts3 =>
                cases t2 with
                | mk ty2 v2 =>
                  cases ty2 with
                  | RPAREN =>
                    simp only [Except.ok.injEq, Prod.mk.injEq] at h
                    obtain ⟨pre, hpre, hd⟩ := ihE ts1 m (⟨TokenType.RPAREN, v2⟩ :: ts3) he
                    refine ⟨⟨TokenType.LPAREN, v⟩ :: pre ++ [⟨TokenType.RPAREN, v2⟩], ?_,
                      Deriv.paren v v2 pre hd⟩
                    rw [← h.2, hpre]
                    simp
                  | PHRASE => simp at h
                  | WORD => simp at h
                  | AND => simp at h
                  | OR => simp at h
                  | LPAREN => simp at h
                  | NEGATION => simp at h
          | RPAREN => simp [parseUnaryF] at h
          | NEGATION => simp [parseUnaryF] at h
          | AND => simp [parseUnaryF] at h
          | OR => simp [parseUnaryF] at h
    · intro acc ts n rest h
      cases ts with
      | nil =>
        simp only [parseAndTailF, Except.ok.injEq, Prod.mk.injEq] at h
        exact ⟨[], by rw [← h.2]; rfl, Deriv.andNil⟩
      | cons t ts1 =>
        cases t with
        | mk ty v =>
          by_cases hA : ty = TokenType.AND
          · subst hA
            simp only [parseAndTailF, if_pos trivial] at h
            cases hu : parseUnaryF f ts1 with
            | error e => rw [hu] at h; simp at h
            | ok res =>
              obtain ⟨n1, ts2⟩ := res
              rw [hu] at h
              simp only [] at h
              obtain ⟨pre1, hp1, hd1⟩ := ihU ts1 n1 ts2 hu
              obtain ⟨pre2, hp2, hd2⟩ := ihT (acc ++ [n1]) ts2 n rest h
              refine ⟨⟨TokenType.AND, v⟩ :: pre1 ++ pre2, ?_,
                Deriv.andExplicit v pre1 pre2 hd1 hd2⟩
              rw [hp1, hp2]
              simp
          · by_cases hS : isUnaryStart ty = true
            · rw [show parseAndTailF (f + 1) acc (⟨ty, v⟩ :: ts1) =
                  (match parseUnaryF f (⟨ty, v⟩ :: ts1) with
                   | Except.error e => Except.error e
                   | Except.ok (n, ts2) => parseAndTailF f (acc ++ [n]) ts2) from by
                simp [parseAndTailF, hA, hS]] at h
              cases hu : parseUnaryF f (⟨ty, v⟩ :: ts1) with
              | error e => rw [hu] at h; simp at h
              | ok res =>
                obtain ⟨n1, ts2⟩ := res
                rw [hu] at h
                simp only [] at h
                obtain ⟨pre1, hp1, hd1⟩ := ihU (⟨ty, v⟩ :: ts1) n1 ts2 hu
                obtain ⟨pre2, hp2, hd2⟩ := ihT (acc ++ [n1]) ts2 n rest h
                refine ⟨pre1 ++ pre2, ?_, Deriv.andImplicit pre1 pre2 hd1 hd2⟩
                rw [hp1, hp2]
                simp
            · rw [show parseAndTailF (f + 1) acc (⟨ty, v⟩ :: ts1) =
                  Except.ok (collapseAnd acc, ⟨ty, v⟩ :: ts1) from by
                simp [parseAndTailF, hA, hS]] at h
              simp only [Except.ok.injEq, Prod.mk.injEq] at h
              exact ⟨[], by rw [← h.2]; rfl, Deriv.andNil⟩
    · intro ts n rest h
      simp only [parseAndExprF] at h
      cases hu : parseUnaryF f ts with
      | error e => rw [hu] at h; simp at h
      | ok res =>
        obtain ⟨n1, ts1⟩ := res
        rw [hu] at h
        simp only [] at h
        obtain ⟨pre1, hp1, hd1⟩ := ihU ts n1 ts1 hu
        obtain ⟨pre2, hp2, hd2⟩ := ihT [n1] ts1 n rest h
        refine ⟨pre1 ++ pre2, ?_, Deriv.andMk pre1 pre2 hd1 hd2⟩
        rw [hp1, hp2]
        simp
    · intro acc ts n rest h
      cases ts with
      | nil =>
        simp only [parseOrTailF, Except.ok.injEq, Prod.mk.injEq] at h
        exact ⟨[], by rw [← h.2]; rfl, Deriv.orNil⟩
      | cons t ts1 =>
        cases t with
        | mk ty v =>
          cases ty with
          | OR =>
            simp only [parseOrTailF] at h
            cases ha : parseAndExprF f ts1 with
            | error e => rw [ha] at h; simp at h
            | ok res =>
              obtain ⟨n1, ts2⟩ := res
              rw [ha] at h
              simp only [] at h
              obtain ⟨pre1, hp1, hd1⟩ := ihA ts1 n1 ts2 ha
              obtain ⟨pre2, hp2, hd2⟩ := ihO (acc ++ [n1]) ts2 n rest h
              refine ⟨⟨TokenType.OR, v⟩ :: pre1 ++ pre2, ?_,
                Deriv.orCons v pre1 pre2 hd1 hd2⟩
              rw [hp1, hp2]
              simp
          | PHRASE =>
            simp only [parseOrTailF, Except.ok.injEq, Prod.mk.injEq] at h
            exact ⟨[], by rw [← h.2]; rfl, Deriv.orNil⟩
          | WORD =>
            simp only [parseOrTailF, Except.ok.injEq, Prod.mk.injEq] at h
            exact ⟨[], by rw [← h.2]; rfl, Deriv.orNil⟩
          | AND =>
            simp only [parseOrTailF, Except.ok.injEq, Prod.mk.injEq] at h
            exact ⟨[], by rw [← h.2]; rfl, Deriv.orNil⟩
          | LPAREN =>
            simp only [parseOrTailF, Except.ok.injEq, Prod.mk.injEq] at h
            exact ⟨[], by rw [← h.2]; rfl, Deriv.orNil⟩
          | RPAREN =>
            simp only [parseOrTailF, Except.ok.injEq, Prod.mk.injEq] at h
            exact ⟨[], by rw [← h.2]; rfl, Deriv.orNil⟩
          | NEGATION =>
            simp only [parseOrTailF, Except.ok.injEq, Prod.mk.injEq] at h
            exact ⟨[], by rw [← h.2]; rfl, Deriv.orNil⟩
    · intro ts n rest h
      simp only [parseExprF] at h
      cases ha : parseAndExprF f ts with
      | error e => rw [ha] at h; simp at h
      | ok res =>
        obtain ⟨n1, ts1⟩ := res
        rw [ha] at h
        simp only [] at h
        obtain ⟨pre1, hp1, hd1⟩ := ihA ts n1 ts1 ha
        obtain ⟨pre2, hp2, hd2⟩ := ihO [n1] ts1 n rest h
        refine ⟨pre1 ++ pre2, ?_, Deriv.exprMk pre1 pre2 hd1 hd2⟩
        rw [hp1, hp2]
        simp

/-- A derivable token list parses to completion with the fuel
`QueryPlanner.parse` supplies. -/
theorem parseExprF_complete (ts : List Token) (h : Deriv Sym.expr ts) (f : Nat)
    (hf : 3 * ts.length + 2 ≤ f) : ∃ n, parseExprF f ts = Except.ok (n, []) := by
  have hc := deriv_complete h f [] hf trivial
  simpa using hc

/-- A full-input parser success comes from a grammar derivation. -/
theorem parseExprF_sound (f : Nat) (ts : List Token) (ast : ASTNode)
    (h : parseExprF f ts = Except.ok (ast, [])) : Deriv Sym.expr ts := by
  obtain ⟨pre, hpre, hd⟩ := (parse_sound f).2.2.2.2 ts ast [] h
  rw [hpre, List.append_nil]
  exact hd

/-- The expression tokens `QueryPlanner.parse` feeds the parser: all
tokens of the raw query except the `-keyword` negations. -/
def exprTokensOf (raw : String) : List Token :=
  (tokenize raw).filter (fun t => t.type ≠ TokenType.NEGATION)

/-- C5: `QueryPlanner.parse` fails on a query of only negation tokens
with the empty-query error; leftover unconsumed tokens fail as
`Unexpected token after expression` and an unmatched `(` as
`Expected RPAREN, found ...` (concrete instances); a syntactically
valid (grammar-derivable, nonempty) expression token list never fails,
and every success is grammar-derivable; and any parse failure
propagates synchronously out of `execute_advanced_search` with the same
structured message, for every scraper oracle — no fetch takes place. -/
theorem claim_c5_parse_failures :
    (∀ raw : String, (∀ t ∈ tokenize raw, t.type = TokenType.NEGATION) →
      QueryPlanner.parse raw = Except.error "Query contains no search terms") ∧
    (∀ (raw : String) (ast : ASTNode) (rest : List Token),
      parseExprF (3 * (exprTokensOf raw).length + 3) (exprTokensOf raw) =
        Except.ok (ast, rest) → rest ≠ [] →
      QueryPlanner.parse raw = Except.error "Unexpected token after expression") ∧
    QueryPlanner.parse "serum (retinol" =
      Except.error "Expected RPAREN, found 'end-of-input'" ∧
    QueryPlanner.parse "serum) retinol" =
      Except.error "Unexpected token after expression" ∧
    (∀ raw : String, exprTokensOf raw ≠ [] → Deriv Sym.expr (exprTokensOf raw) →
      ∃ plan, QueryPlanner.parse raw = Except.ok plan) ∧
    (∀ (raw : String) (plan : QueryPlan),
      QueryPlanner.parse raw = Except.ok plan → Deriv Sym.expr (exprTokensOf raw)) ∧
    (∀ (raw e : String), QueryPlanner.parse raw = Except.error e →
      ∀ (ttl : ℤ) (sourceIds negativeKeywords : List String)
        (oracle : String → List (Except String (List Product)))
        (cache : List CacheEntry) (now : ℤ),
        SearchOrchestrator.executeAdvancedSearch ttl raw sourceIds negativeKeywords
          oracle cache now = Except.error e) := by
  refine ⟨?_, ?_, ?_, ?_, ?_, ?_, ?_⟩
  · intro raw hneg
    have hfil : (tokenize raw).filter (fun t => t.type ≠ TokenType.NEGATION) = [] := by
      rw [List.filter_eq_nil_iff]
      intro t ht
      simp [hneg t ht]
    unfold QueryPlanner.parse QueryPlanner.parseTokens
    simp only []
    rw [if_pos (by rw [hfil]; rfl)]
  · intro raw ast rest h hrest
    simp only [exprTokensOf] at h
    by_cases hemp : (tokenize raw).filter (fun t => t.type ≠ TokenType.NEGATION) = []
    · rw [hemp] at h
      rw [show parseExprF (3 * ([] : List Token).length + 3) ([] : List Token) =
          Except.error "Unexpected end of query" from rfl] at h
      exact absurd h (by simp)
    · unfold QueryPlanner.parse QueryPlanner.parseTokens
      simp only []
      rw [if_neg (by simpa [List.isEmpty_iff] using hemp)]
      rw [h]
      simp only []
      rw [if_pos (by simp [hrest])]
  · rw [QueryPlanner.parse,
      show tokenize "serum (retinol" =
          [⟨TokenType.WORD, "serum"⟩, ⟨TokenType.LPAREN, "("⟩,
           ⟨TokenType.WORD, "retinol"⟩] from by
        simp [tokenize, tokenizeAux, isTokenChar, isWordChar, classifyWord, String.data]]
    rfl
  · rw [QueryPlanner.parse,
      show tokenize "serum) retinol" =
          [⟨TokenType.WORD, "serum"⟩, ⟨TokenType.RPAREN, ")"⟩,
           ⟨TokenType.WORD, "retinol"⟩] from by
        simp [tokenize, tokenizeAux, isTokenChar, isWordChar, classifyWord, String.data]]
    rfl
  · intro raw hne hder
    simp only [exprTokensOf] at hne hder
    unfold QueryPlanner.parse QueryPlanner.parseTokens
    simp only []
    rw [if_neg (by simpa [List.isEmpty_iff] using hne)]
    obtain ⟨n, hn⟩ := parseExprF_complete _ hder
      (3 * ((tokenize raw).filter (fun t => t.type ≠ TokenType.NEGATION)).length + 3)
      (by omega)
    rw [hn]
    exact ⟨_, rfl⟩
  · intro raw plan h
    simp only [exprTokensOf]
    unfold QueryPlanner.parse QueryPlanner.parseTokens at h
    simp only [] at h
    by_cases hemp :
        ((tokenize raw).filter (fun t => t.type ≠ TokenType.NEGATION)).isEmpty = true
    · rw [if_pos hemp] at h
      exact absurd h (by simp)
    · rw [if_neg hemp] at h
      cases he : parseExprF
          (3 * ((tokenize raw).filter (fun t => t.type ≠ TokenType.NEGATION)).length + 3)
          ((tokenize raw).filter (fun t => t.type ≠ TokenType.NEGATION)) with
      | error e => rw [he] at h; exact absurd h (by simp)
      | ok res =>
        obtain ⟨ast, rest⟩ := res
        rw [he] at h
        simp only [] at h
        by_cases hr : rest.isEmpty = true
        · obtain rfl := List.isEmpty_iff.mp hr
          exact parseExprF_sound _ _ _ he
        · rw [eq_false_of_ne_true hr] at h
          exact absurd h (by simp)
  · intro raw e h ttl sourceIds negativeKeywords oracle cache now
    unfold SearchOrchestrator.executeAdvancedSearch
    rw [h]

/-- Witness for C5 on concrete queries: only-negations, leftover token,
unmatched paren propagated through the orchestrator, and a valid
`OR` query that parses (with its token list grammar-derivable). -/
theorem claim_c5_witness :
    QueryPlanner.parse "-cheap" = Except.error "Query contains no search terms" ∧
    QueryPlanner.parse "serum) retinol" =
      Except.error "Unexpected token after expression" ∧
    (∃ plan, QueryPlanner.parse "serum OR retinol" = Except.ok plan) ∧
    Deriv Sym.expr (exprTokensOf "serum OR retinol") ∧
    SearchOrchestrator.executeAdvancedSearch 10 "serum (retinol" ["s"] []
        (fun _ => []) [] 0 =
      Except.error "Expected RPAREN, found 'end-of-input'" := by
  have htokOR : tokenize "serum OR retinol" =
      [⟨TokenType.WORD, "serum"⟩, ⟨TokenType.OR, "OR"⟩, ⟨TokenType.WORD, "retinol"⟩] := by
    simp [tokenize, tokenizeAux, isTokenChar, isWordChar, classifyWord, String.data]
  have hetsOR : exprTokensOf "serum OR retinol" =
      [⟨TokenType.WORD, "serum"⟩, ⟨TokenType.OR, "OR"⟩, ⟨TokenType.WORD, "retinol"⟩] := by
    rw [exprTokensOf, htokOR]
    rfl
  have hparseOR : QueryPlanner.parse "serum OR retinol" =
      Except.ok ⟨ASTNode.or [ASTNode.term "serum", ASTNode.term "retinol"],
        ["serum", "retinol"], ∅⟩ := by
    rw [QueryPlanner.parse, htokOR]
    rfl
  have hetsLeft : exprTokensOf "serum) retinol" =
      [⟨TokenType.WORD, "serum"⟩, ⟨TokenType.RPAREN, ")"⟩,
       ⟨TokenType.WORD, "retinol"⟩] := by
    rw [exprTokensOf,
      show tokenize "serum) retinol" =
          [⟨TokenType.WORD, "serum"⟩, ⟨TokenType.RPAREN, ")"⟩,
           ⟨TokenType.WORD, "retinol"⟩] from by
        simp [tokenize, tokenizeAux, isTokenChar, isWordChar, classifyWord, String.data]]
    rfl
  have htokNeg : tokenize "-cheap" = [⟨TokenType.NEGATION, "cheap"⟩] := by
    simp [tokenize, tokenizeAux, isTokenChar, isWordChar, classifyWord, String.data]
  have hderOR : Deriv Sym.expr (exprTokensOf "serum OR retinol") := by
    rw [hetsOR]
    have h1 : Deriv Sym.andE [⟨TokenType.WORD, "serum"⟩] := by
      have := Deriv.andMk [⟨TokenType.WORD, "serum"⟩] [] (Deriv.word "serum") Deriv.andNil
      simpa using this
    have h2 : Deriv Sym.andE [⟨TokenType.WORD, "retinol"⟩] := by
      have := Deriv.andMk [⟨TokenType.WORD, "retinol"⟩] []
        (Deriv.word "retinol") Deriv.andNil
      simpa using this
    have h3 : Deriv Sym.orTail [⟨TokenType.OR, "OR"⟩, ⟨TokenType.WORD, "retinol"⟩] := by
      have := Deriv.orCons "OR" [⟨TokenType.WORD, "retinol"⟩] [] h2 Deriv.orNil
      simpa using this
    have := Deriv.exprMk [⟨TokenType.WORD, "serum"⟩]
      [⟨TokenType.OR, "OR"⟩, ⟨TokenType.WORD, "retinol"⟩] h1 h3
    simpa using this
  refine ⟨claim_c5_parse_failures.1 "-cheap" ?_,
    claim_c5_parse_failures.2.1 "serum) retinol" (ASTNode.term "serum")
      [⟨TokenType.RPAREN, ")"⟩, ⟨TokenType.WORD, "retinol"⟩] ?_ (by simp),
    claim_c5_parse_failures.2.2.2.2.1 "serum OR retinol"
      (by rw [hetsOR]; simp) hderOR,
    claim_c5_parse_failures.2.2.2.2.2.1 "serum OR retinol" _ hparseOR,
    claim_c5_parse_failures.2.2.2.2.2.2 "serum (retinol" _
      claim_c5_parse_failures.2.2.1 10 ["s"] [] (fun _ => []) [] 0⟩
  · intro t ht
    rw [htokNeg] at ht
    simp only [List.mem_singleton] at ht
    rw [ht]
  · rw [hetsLeft]
    rfl

end MarketplaceScraper
